import Mathlib

/-!
Verification of the uWSGI Prometheus metrics exporter plugin (plugin.c).

The development shallowly embeds the plugin's C code:
* byte strings become `List Char`;
* `uwsgi_buffer_append` / `uwsgi_buffer_num64` calls, which can fail on
  allocation exhaustion (they return -1), consume one cell of an explicit
  allocation tape (`List Bool`, empty tape = every allocation succeeds);
* `uwsgi_malloc`-backed allocations (`seen_names_add`, `uwsgi_buffer_new`)
  never fail in uwsgi (uwsgi_malloc exits the process on failure), so they
  are modelled as total;
* the lock/value-read behaviour of the generation pass is recorded as an
  explicit event trace.
-/

namespace UwsgiProm

/-- Character test from `prometheus_format_metric_name` (plugin.c:178-179):
letters, digits and underscore pass through unchanged. -/
def isValidNameChar (c : Char) : Bool :=
  ('a' ≤ c && c ≤ 'z') || ('A' ≤ c && c ≤ 'Z') || ('0' ≤ c && c ≤ '9') || c = '_'

/-- Sanitization applied while a segment is accumulated (plugin.c:176-184). -/
def sanitizeChar (c : Char) : Char :=
  if isValidNameChar c then c else '_'

/-- Digit test from the numeric-segment check (plugin.c:148). -/
def isDigitChar (c : Char) : Bool :=
  '0' ≤ c && c ≤ '9'

/-- The segment accumulation cap: `sizeof(segment) - 1` with
`char segment[256]` (plugin.c:131,176), i.e. at most 255 bytes are kept. -/
def segCap : Nat := 255

/-- Allocation tape: each buffer-append call consumes one cell; an empty
tape means every remaining allocation succeeds. -/
def tapeStep : List Bool → Bool × List Bool
  | [] => (true, [])
  | b :: t => (b, t)

/-- One `uwsgi_buffer_append` call: on success the data is appended,
on failure (`return -1` in C) the buffer result is `none`. -/
def bufAppendT (tape : List Bool) (buf d : List Char) : Option (List Char) × List Bool :=
  let (ok, t) := tapeStep tape
  (if ok then some (buf ++ d) else none, t)

/-- A sequence of `uwsgi_buffer_append` calls, stopping at the first
failure (each C call site checks the return value and bails out). -/
def appendManyT : List Bool → List Char → List (List Char) → Option (List Char) × List Bool
  | tape, buf, [] => (some buf, tape)
  | tape, buf, d :: ds =>
    match bufAppendT tape buf d with
    | (some buf2, t) => appendManyT t buf2 ds
    | (none, t) => (none, t)

/-- The local state of `prometheus_format_metric_name`: the two output
buffers plus `label_index` and `in_numeric_sequence`. -/
structure TransState where
  nameBuf : List Char
  labelsBuf : List Char
  labelIndex : Nat
  inNumSeq : Bool
deriving Repr, DecidableEq

/-- `label_names[4][16] = {"worker", "core", "thread", "id"}` (plugin.c:135);
only indices 0-3 are ever read. -/
def labelNameAt : Nat → List Char
  | 0 => "worker".data
  | 1 => "core".data
  | 2 => "thread".data
  | _ => "id".data

/-- Processing of one completed segment (plugin.c:144-174): numeric
segments become labels (at most 4), other segments are appended to the
flat name, with a `_` separator unless at the start or just after a
numeric segment. -/
def flushSegmentT (pfxLen : Nat) (tape : List Bool) (st : TransState) (seg : List Char) :
    Option TransState × List Bool :=
  if seg.isEmpty then (some st, tape)
  else if seg.all isDigitChar then
    if st.labelIndex < 4 then
      match appendManyT tape st.labelsBuf
        ((if st.labelsBuf.isEmpty then [] else [[',']]) ++
         [labelNameAt st.labelIndex, ['=', '"'], seg, ['"']]) with
      | (some lb, t) =>
          (some { st with labelsBuf := lb, labelIndex := st.labelIndex + 1, inNumSeq := true }, t)
      | (none, t) => (none, t)
    else (some { st with inNumSeq := true }, tape)
  else
    match appendManyT tape st.nameBuf
      ((if pfxLen < st.nameBuf.length ∧ st.inNumSeq = false then [['_']] else []) ++ [seg]) with
    | (some nb, t) => (some { st with nameBuf := nb, inNumSeq := false }, t)
    | (none, t) => (none, t)

/-- The character loop of `prometheus_format_metric_name` (plugin.c:142-186):
accumulate sanitized characters of the current segment (capped at 255),
flushing at each `.` and at the end of the input. -/
def transLoopT (pfxLen : Nat) : List Char → List Char → List Bool → TransState →
    Option TransState × List Bool
  | [], seg, tape, st => flushSegmentT pfxLen tape st seg
  | c :: cs, seg, tape, st =>
    if c = '.' then
      match flushSegmentT pfxLen tape st seg with
      | (some st2, t) => transLoopT pfxLen cs [] t st2
      | (none, t) => (none, t)
    else
      transLoopT pfxLen cs (if seg.length < segCap then seg ++ [sanitizeChar c] else seg) tape st

/-- `prometheus_format_metric_name` (plugin.c:128-189): reset the two
buffers, seed the name buffer with the configured metric name pfx, then run
the segment loop.  `none` models the C return value -1 (append failure). -/
def prometheus_format_metric_name (tape : List Bool) (metricName : List Char)
    (pfx : List Char) : Option TransState × List Bool :=
  match bufAppendT tape [] pfx with
  | (some nb, t) => transLoopT pfx.length metricName [] t ⟨nb, [], 0, false⟩
  | (none, t) => (none, t)

/-- The translator run with every allocation succeeding. -/
def translateName (metricName pfx : List Char) : Option TransState :=
  (prometheus_format_metric_name [] metricName pfx).1

/-! ### Pure (allocation-free) view of the translator -/

/-- `flushSegmentT` when every allocation succeeds. -/
def flushSeg (pfxLen : Nat) (st : TransState) (seg : List Char) : TransState :=
  if seg.isEmpty then st
  else if seg.all isDigitChar then
    if st.labelIndex < 4 then
      { st with
        labelsBuf := st.labelsBuf ++ (if st.labelsBuf.isEmpty then [] else [',']) ++
          labelNameAt st.labelIndex ++ ['=', '"'] ++ seg ++ ['"'],
        labelIndex := st.labelIndex + 1, inNumSeq := true }
    else { st with inNumSeq := true }
  else
    { st with
      nameBuf := st.nameBuf ++
        (if pfxLen < st.nameBuf.length ∧ st.inNumSeq = false then ['_'] else []) ++ seg,
      inNumSeq := false }

/-- Fold `flushSeg` over a list of already-accumulated segments. -/
def runSegs (pfxLen : Nat) : TransState → List (List Char) → TransState
  | st, [] => st
  | st, s :: rest => runSegs pfxLen (flushSeg pfxLen st s) rest

/-- The sanitized, capped segments the character loop accumulates,
starting from a partially accumulated segment `seg`. -/
def segsFrom (seg : List Char) : List Char → List (List Char)
  | [] => [seg]
  | c :: cs =>
    if c = '.' then seg :: segsFrom [] cs
    else segsFrom (if seg.length < segCap then seg ++ [sanitizeChar c] else seg) cs

/-- Raw split of a dotted name at every `.` (empty segments included). -/
def rawDotSegs : List Char → List (List Char)
  | [] => [[]]
  | c :: cs =>
    if c = '.' then [] :: rawDotSegs cs
    else
      match rawDotSegs cs with
      | [] => [[c]]
      | s :: rest => (c :: s) :: rest

/-- Keep the first `segCap` bytes of a raw segment and sanitize them. -/
def sanTrunc (s : List Char) : List Char :=
  (s.take segCap).map sanitizeChar

/-- Spec-side rendering of an ordered label list as the plugin's labels
buffer text: `key="value"` pairs joined by commas. -/
def renderLabel (k v : List Char) : List Char :=
  k ++ ['=', '"'] ++ v ++ ['"']

/-- Spec-side rendering of an ordered label list. -/
def renderLabels : List (List Char × List Char) → List Char
  | [] => []
  | [kv] => renderLabel kv.1 kv.2
  | kv :: rest => renderLabel kv.1 kv.2 ++ [','] ++ renderLabels rest

/-- The four positional label keys, in discovery order. -/
def labelKeys : List (List Char) :=
  ["worker".data, "core".data, "thread".data, "id".data]

/-- The numeric (all-digit, non-empty) sanitized segments of a dotted
name, in left-to-right order. -/
def numSegsOf (name : List Char) : List (List Char) :=
  ((rawDotSegs name).map sanTrunc).filter (fun s => !s.isEmpty && s.all isDigitChar)

/-- Spec-side flat-name builder, following the claim's wording: sanitized
non-numeric segments are concatenated, separated by `_`, except that no
separator is inserted immediately after a numeric-segment position.
`started` records whether a text segment was already placed, `afterNum`
whether the previous non-empty segment was numeric. -/
def specJoinSegs (started afterNum : Bool) : List (List Char) → List Char
  | [] => []
  | s :: rest =>
    if s.isEmpty then specJoinSegs started afterNum rest
    else if s.all isDigitChar then specJoinSegs started true rest
    else
      (if started = true ∧ afterNum = false then ['_'] else []) ++ s ++
        specJoinSegs true false rest

/-- Helper describing how the labels buffer grows over the numeric
segments, starting from label index `k` with `empty` recording whether the
labels buffer is still empty. -/
def labelsTail (k : Nat) (empty : Bool) : List (List Char) → List Char
  | [] => []
  | v :: vs =>
    if k < 4 then
      (if empty then [] else [',']) ++ labelNameAt k ++ ['=', '"'] ++ v ++ ['"'] ++
        labelsTail (k + 1) false vs
    else labelsTail k empty vs

/-! ### The snapshot generation pass (`prometheus_generate_metrics`) -/

/-- uWSGI metric type tags; `other` stands for any tag outside the three
cases of the `switch` at plugin.c:269-279 (mapped to `untyped`). -/
inductive MetricType
  | counter
  | gauge
  | absolute
  | other
deriving Repr, DecidableEq

/-- One registry record: name, type tag and the (possibly NULL) shared
`int64` value pointer, read under the registry lock. -/
structure MetricRecord where
  name : List Char
  mtype : MetricType
  value : Option Int
deriving Repr, DecidableEq

/-- The `ump_config` fields the generation pass reads; `pfx = none`
models a NULL `prefix` (default `"uwsgi_"`, plugin.c:211). -/
structure PromConfig where
  pfx : Option (List Char)
  no_workers : Bool
  include_help : Bool
  include_type : Bool
deriving Repr, DecidableEq

/-- `ump_config.prefix ? ump_config.prefix : "uwsgi_"` (plugin.c:211). -/
def effPfx (cfg : PromConfig) : List Char :=
  (PromConfig.pfx cfg).getD "uwsgi_".data

/-- Type mapping of the `switch` at plugin.c:268-279. -/
def promTypeName : MetricType → List Char
  | .counter => "counter".data
  | .gauge => "gauge".data
  | .absolute => "gauge".data
  | .other => "untyped".data

/-- Observable events of one generation pass: output-buffer appends, the
registry lock operations, the value reads, and log lines.  `wlock` is
never emitted by the plugin; it is present so that its absence is a
statement, not a tautology. -/
inductive Ev
  | bufAppend (data : List Char)
  | rlock
  | wlock
  | rwunlock
  | readValue (v : Int)
  | logmsg
deriving Repr, DecidableEq

/-- The bytes an event contributes to the output buffer. -/
def evBytes : Ev → List Char
  | .bufAppend d => d
  | _ => []

/-- The output buffer accumulated by an event stream. -/
def bytesOf (evs : List Ev) : List Char :=
  (evs.map evBytes).flatten

/-- A sequence of checked `uwsgi_buffer_append` calls on the output
buffer, as events; `none` models the `goto error` taken at the first
failing call. -/
def appendEvs (tape : List Bool) : List (List Char) → Option (List Ev) × List Bool
  | [] => (some [], tape)
  | d :: ds =>
    let (ok, t) := tapeStep tape
    if ok then
      match appendEvs t ds with
      | (some evs, t2) => (some (Ev.bufAppend d :: evs), t2)
      | (none, t2) => (none, t2)
    else (none, t)

/-- `seen_names_contains` (plugin.c:70-79): linear scan comparing length
and bytes. -/
def seen_names_contains (seen : List (List Char)) (n : List Char) : Bool :=
  seen.contains n

/-- `seen_names_add` (plugin.c:81-95): push a copy at the head.  The
`uwsgi_malloc` failure branches are dead code (uwsgi_malloc exits the
process instead of returning NULL), so the add always succeeds. -/
def seen_names_add (seen : List (List Char)) (n : List Char) : List (List Char) :=
  n :: seen

/-- `uwsgi_buffer_num64` output for an int64 value. -/
def renderInt (v : Int) : List Char :=
  (toString v).data

/-- `"worker."`, the skip filter of `--prometheus-no-workers`
(plugin.c:228). -/
def workerDot : List Char :=
  "worker.".data

/-- Outcome of the loop body for one registry record: `aborted` is the
`goto error` path, `skipped` the `continue` paths, `emitted` a processed
record together with the updated seen-name set. -/
inductive RecResult
  | aborted
  | skipped (evs : List Ev)
  | emitted (evs : List Ev) (seen2 : List (List Char))
deriving Repr, DecidableEq

/-- The output-buffer chunks appended for one record before the value
read (plugin.c:255-298): the optional HELP and TYPE comment pieces when
the flat name is new (`is_new_metric`), then the metric line pieces. -/
def emitChunks (cfg : PromConfig) (seen : List (List Char)) (r : MetricRecord)
    (flat lbs : List Char) : List (List Char) :=
  (if !seen_names_contains seen flat && cfg.include_help then
    ["# HELP ".data, flat, [' '], r.name, ['\n']]
  else []) ++
  (if !seen_names_contains seen flat && cfg.include_type then
    ["# TYPE ".data, flat, [' '], promTypeName r.mtype, ['\n']]
  else []) ++
  ([flat] ++ (if lbs.isEmpty then [] else [['{'], lbs, ['}']]) ++ [[' ']])

/-- The checked output-buffer appends around the locked value read
(plugin.c:255-305): the pre-value chunks, then `rlock`, the value read,
`rwunlock`, then the rendered value and the newline. -/
def emitAppends (tape : List Bool) (chunks : List (List Char)) (v : Int)
    (seen2 : List (List Char)) : RecResult × List Bool :=
  match appendEvs tape chunks with
  | (none, t3) => (.aborted, t3)
  | (some evs1, t3) =>
    match appendEvs t3 [renderInt v, ['\n']] with
    | (none, t4) => (.aborted, t4)
    | (some evs2, t4) =>
      (.emitted (evs1 ++ [Ev.rlock, Ev.readValue v, Ev.rwunlock] ++ evs2) seen2, t4)

/-- The emission phase of the loop body (plugin.c:253-307): HELP/TYPE
deduplication, the metric line, and the locked value read.  `flat` is the
flat name after any `_total` suffixing, `lbs` the labels buffer; the seen
set gains `flat` when it was new. -/
def emitPhase (cfg : PromConfig) (tape : List Bool) (seen : List (List Char))
    (r : MetricRecord) (flat lbs : List Char) : RecResult × List Bool :=
  emitAppends tape (emitChunks cfg seen r flat lbs) (r.value.getD 0)
    (if !seen_names_contains seen flat then seen_names_add seen flat else seen)

/-- The loop body of `prometheus_generate_metrics` for one record
(plugin.c:222-308). -/
def processRecord (cfg : PromConfig) (tape : List Bool) (seen : List (List Char))
    (r : MetricRecord) : RecResult × List Bool :=
  if r.name.isEmpty ∨ r.value = none then (.skipped [], tape)
  else if cfg.no_workers = true ∧ workerDot.isPrefixOf r.name then (.skipped [], tape)
  else
    match prometheus_format_metric_name tape r.name (effPfx cfg) with
    | (none, t) => (.skipped [Ev.logmsg], t)
    | (some st, t) =>
      if st.nameBuf.isEmpty then (.skipped [], t)
      else
        match (if r.mtype = MetricType.counter
               then bufAppendT t st.nameBuf "_total".data
               else (some st.nameBuf, t)) with
        | (none, t2) => (.skipped [Ev.logmsg], t2)
        | (some flatName, t2) => emitPhase cfg t2 seen r flatName st.labelsBuf

/-- The registry iteration of `prometheus_generate_metrics`
(plugin.c:221-308): fold over the records, aborting the pass on a
`goto error`. -/
def generateAux (cfg : PromConfig) : List Bool → List (List Char) → List MetricRecord →
    Option (List Ev)
  | _, _, [] => some []
  | tape, seen, r :: rest =>
    match processRecord cfg tape seen r with
    | (.aborted, _) => none
    | (.skipped evs, t) => (generateAux cfg t seen rest).map (evs ++ ·)
    | (.emitted evs seen2, t) => (generateAux cfg t seen2 rest).map (evs ++ ·)

/-- `prometheus_generate_metrics` (plugin.c:191-321) as an event stream;
`none` models returning NULL.  If metrics are disabled or the registry
head is NULL, the fresh (empty) buffer is returned after a log line
(plugin.c:213-219). -/
def prometheus_generate_metrics_evs (tape : List Bool) (cfg : PromConfig)
    (hasMetrics : Bool) (rs : List MetricRecord) : Option (List Ev) :=
  if hasMetrics = false ∨ rs.isEmpty then some [Ev.logmsg]
  else generateAux cfg tape [] rs

/-- `prometheus_generate_metrics`, projected to the returned buffer
contents (`none` = NULL return, `some buf` = the buffer's bytes). -/
def prometheus_generate_metrics (tape : List Bool) (cfg : PromConfig)
    (hasMetrics : Bool) (rs : List MetricRecord) : Option (List Char) :=
  (prometheus_generate_metrics_evs tape cfg hasMetrics rs).map bytesOf

/-! ### Line-level view of a successful pass -/

/-- One line of exposition output: a `# HELP` comment, a `# TYPE`
comment, or a metric sample line. -/
inductive PromLine
  | help (flat raw : List Char)
  | tline (flat ptype : List Char)
  | sample (flat labels : List Char) (v : Int)
deriving Repr, DecidableEq

/-- The lines contributed by one record when no allocation fails
(`none` = record skipped), together with the updated seen-name set. -/
def recordLines (cfg : PromConfig) (seen : List (List Char)) (r : MetricRecord) :
    Option (List PromLine × List (List Char)) :=
  if r.name.isEmpty ∨ r.value = none then none
  else if cfg.no_workers = true ∧ workerDot.isPrefixOf r.name then none
  else
    match translateName r.name (effPfx cfg) with
    | none => none
    | some st =>
      if st.nameBuf.isEmpty then none
      else
        let flatName :=
          if r.mtype = MetricType.counter then st.nameBuf ++ "_total".data else st.nameBuf
        let isNew := !seen_names_contains seen flatName
        let helpLines := if isNew && cfg.include_help then [PromLine.help flatName r.name] else []
        let typeLines :=
          if isNew && cfg.include_type then [PromLine.tline flatName (promTypeName r.mtype)]
          else []
        let seen2 := if isNew then seen_names_add seen flatName else seen
        some (helpLines ++ typeLines ++
          [PromLine.sample flatName st.labelsBuf (r.value.getD 0)], seen2)

/-- Line-level fold over the registry (successful pass). -/
def outputLinesAux (cfg : PromConfig) : List (List Char) → List MetricRecord → List PromLine
  | _, [] => []
  | seen, r :: rest =>
    match recordLines cfg seen r with
    | none => outputLinesAux cfg seen rest
    | some (ls, seen2) => ls ++ outputLinesAux cfg seen2 rest

/-- The lines of one full successful generation pass. -/
def outputLines (cfg : PromConfig) (rs : List MetricRecord) : List PromLine :=
  outputLinesAux cfg [] rs

/-- Rendering of one line, matching the append sequence of the C loop. -/
def renderLine : PromLine → List Char
  | .help f raw => "# HELP ".data ++ f ++ [' '] ++ raw ++ ['\n']
  | .tline f pt => "# TYPE ".data ++ f ++ [' '] ++ pt ++ ['\n']
  | .sample f lbs v =>
    f ++ (if lbs.isEmpty then [] else ['{'] ++ lbs ++ ['}']) ++ [' '] ++ renderInt v ++ ['\n']

/-- Rendering of a line list. -/
def renderLines (ls : List PromLine) : List Char :=
  (ls.map renderLine).flatten

/-- Is this line a `# HELP` comment for flat name `f`? -/
def isHelpFor (f : List Char) : PromLine → Bool
  | .help g _ => decide (g = f)
  | _ => false

/-- Is this line a `# TYPE` comment for flat name `f`? -/
def isTypeFor (f : List Char) : PromLine → Bool
  | .tline g _ => decide (g = f)
  | _ => false

/-- Is this line a metric sample line for flat name `f`? -/
def isSampleFor (f : List Char) : PromLine → Bool
  | .sample g _ _ => decide (g = f)
  | _ => false

/-- Scan of an event trace checking the lock discipline: every lock
acquisition is the read lock, immediately followed by exactly one value
read and then the release — so no append, log line or record iteration
ever happens while the lock is held, and no write lock or stray release
occurs. -/
def criticalSectionsOk : List Ev → Bool
  | [] => true
  | Ev.rlock :: Ev.readValue _ :: Ev.rwunlock :: rest => criticalSectionsOk rest
  | Ev.rlock :: _ => false
  | Ev.rwunlock :: _ => false
  | Ev.wlock :: _ => false
  | _ :: rest => criticalSectionsOk rest

/-! ### Route handler (`uwsgi_routing_func_prometheus_metrics`) -/

/-- Return values of a uWSGI routing function; the plugin only ever uses
`route_break` (UWSGI_ROUTE_BREAK), the others exist in the host API. -/
inductive UwsgiRouteResult
  | route_break
  | route_next
  | route_continue
deriving Repr, DecidableEq

/-- Host response primitives invoked by the route handler, as a trace;
`genCall` marks an invocation of `prometheus_generate_metrics`. -/
inductive RAct
  | prepare (status : List Char)
  | contentType (ct : List Char)
  | contentLength (n : Nat)
  | body (b : List Char)
  | genCall
deriving Repr, DecidableEq

/-- Fixed 503 body (plugin.c:489). -/
def msg503 : List Char :=
  "Metrics subsystem not initialized. Enable with --enable-metrics\n".data

/-- Fixed 500 body of the route handler (plugin.c:500). -/
def msg500 : List Char :=
  "Failed to generate metrics\n".data

/-- Status strings and the content type used by the route handler. -/
def status503 : List Char := "503 Service Unavailable".data

/-- 500 status string (plugin.c:497). -/
def status500 : List Char := "500 Internal Server Error".data

/-- 200 status string (plugin.c:505). -/
def status200 : List Char := "200 OK".data

/-- Content type value (plugin.c:510). -/
def ctValue : List Char := "text/plain; version=0.0.4; charset=utf-8".data

/-- `uwsgi_routing_func_prometheus_metrics` (plugin.c:483-527).
`hostTape` decides the success of each host response primitive in call
order (each can fail); `tape` is the allocation tape of the generation
pass.  The result is the returned route code together with the trace of
host calls made. -/
def uwsgi_routing_func_prometheus_metrics (hostTape tape : List Bool) (cfg : PromConfig)
    (hasMetrics : Bool) (rs : List MetricRecord) : UwsgiRouteResult × List RAct :=
  if hasMetrics = false ∨ rs.isEmpty then
    if (tapeStep hostTape).1 = false then (.route_break, [RAct.prepare status503])
    else (.route_break, [RAct.prepare status503, RAct.body msg503])
  else
    match prometheus_generate_metrics tape cfg hasMetrics rs with
    | none =>
      if (tapeStep hostTape).1 = false then
        (.route_break, [RAct.genCall, RAct.prepare status500])
      else (.route_break, [RAct.genCall, RAct.prepare status500, RAct.body msg500])
    | some buf =>
      if (tapeStep hostTape).1 = false then
        (.route_break, [RAct.genCall, RAct.prepare status200])
      else if (tapeStep (tapeStep hostTape).2).1 = false then
        (.route_break, [RAct.genCall, RAct.prepare status200, RAct.contentType ctValue])
      else if (tapeStep (tapeStep (tapeStep hostTape).2).2).1 = false then
        (.route_break, [RAct.genCall, RAct.prepare status200, RAct.contentType ctValue,
          RAct.contentLength buf.length])
      else
        (.route_break, [RAct.genCall, RAct.prepare status200, RAct.contentType ctValue,
          RAct.contentLength buf.length, RAct.body buf])

/-! ### Dedicated responder (`prometheus_server_handle_request`,
`prometheus_master_cycle`) -/

/-- One accepted connection; `readLen` is the result of the `read` call
on it (a value `≤ 0` aborts the cycle, plugin.c:356-360). -/
structure Conn where
  readLen : Int
deriving Repr, DecidableEq

/-- The fixed 500 response of the dedicated server (plugin.c:365-370),
byte for byte. -/
def http500Fixed : List Char :=
  ("HTTP/1.0 500 Internal Server Error\r\n" ++
   "Content-Type: text/plain\r\n" ++
   "Content-Length: 28\r\n" ++
   "\r\n" ++
   "Failed to generate metrics\n").data

/-- `prometheus_server_handle_request` (plugin.c:337-417), its response
bytes: `none` when the read fails (connection closed, nothing written),
otherwise the concatenation of the header and body writes. -/
def prometheus_server_handle_request (tape : List Bool) (cfg : PromConfig) (hasMetrics : Bool)
    (rs : List MetricRecord) (c : Conn) : Option (List Char) :=
  if c.readLen ≤ 0 then none
  else
    match prometheus_generate_metrics tape cfg hasMetrics rs with
    | none => some http500Fixed
    | some buf =>
      some ("HTTP/1.0 200 OK\r\n".data ++
        "Content-Type: text/plain; version=0.0.4; charset=utf-8\r\n".data ++
        "Content-Length: ".data ++ renderInt (Int.ofNat buf.length) ++ "\r\n".data ++
        "Connection: close\r\n".data ++
        "\r\n".data ++ buf)

/-- Master-side server state: the listening socket (negative = unbound,
plugin.c:426) and the OS accept queue of pending connections. -/
structure MasterState where
  server_fd : Int
  pending : List Conn
deriving Repr, DecidableEq

/-- `prometheus_master_cycle` (plugin.c:424-439): no-op when unbound;
otherwise a zero-timeout readiness check, and if a connection is pending,
exactly one accept followed by the request cycle.  The second component
is `none` when no connection was accepted, otherwise the handled
connection's response. -/
def prometheus_master_cycle (tape : List Bool) (cfg : PromConfig) (hasMetrics : Bool)
    (rs : List MetricRecord) (st : MasterState) : MasterState × Option (Option (List Char)) :=
  if st.server_fd < 0 then (st, none)
  else
    match st.pending with
    | [] => (st, none)
    | c :: rest =>
      ({ st with pending := rest },
        some (prometheus_server_handle_request tape cfg hasMetrics rs c))

/-! ### Small response parsers (used to state Content-Length facts) -/

/-- Body of an HTTP response: everything after the first blank line. -/
def splitBody : List Char → List Char
  | '\r' :: '\n' :: '\r' :: '\n' :: rest => rest
  | _ :: rest => splitBody rest
  | [] => []

/-- Parse a decimal run terminated by `\r`. -/
def parseNatDigits : List Char → Nat → Option Nat
  | '\r' :: _, acc => some acc
  | c :: cs, acc =>
    if isDigitChar c then parseNatDigits cs (acc * 10 + (c.toNat - '0'.toNat)) else none
  | [], _ => none

/-- The declared `Content-Length` header value of a response. -/
def parseCL : List Char → Option Nat
  | 'C' :: 'o' :: 'n' :: 't' :: 'e' :: 'n' :: 't' :: '-' :: 'L' :: 'e' :: 'n' :: 'g' :: 't' ::
      'h' :: ':' :: ' ' :: rest => parseNatDigits rest 0
  | _ :: rest => parseCL rest
  | [] => none

/-- Spec-side inverse of `rawDotSegs`: rejoin raw segments with dots. -/
def joinDots : List (List Char) → List Char
  | [] => []
  | [s] => s
  | s :: r :: rest => s ++ '.' :: joinDots (r :: rest)

/-! ### Bridge lemmas: the C character loop equals the segment-level view -/

theorem appendManyT_nil (ds : List (List Char)) :
    ∀ buf, appendManyT [] buf ds = (some (buf ++ ds.flatten), []) := by
  induction ds with
  | nil => intro buf; simp [appendManyT]
  | cons d ds ih => intro buf; simp [appendManyT, bufAppendT, tapeStep, ih]

theorem flushSegmentT_nil (pl : Nat) (st : TransState) (seg : List Char) :
    flushSegmentT pl [] st seg = (some (flushSeg pl st seg), []) := by
  simp only [flushSegmentT, flushSeg, appendManyT_nil]
  split_ifs <;> simp_all [List.append_assoc]

theorem transLoopT_nil (pl : Nat) (cs : List Char) :
    ∀ seg st, transLoopT pl cs seg [] st = (some (runSegs pl st (segsFrom seg cs)), []) := by
  induction cs with
  | nil => intro seg st; simp [transLoopT, segsFrom, runSegs, flushSegmentT_nil]
  | cons c cs ih =>
    intro seg st
    by_cases hc : c = '.'
    · simp [transLoopT, segsFrom, hc, flushSegmentT_nil, ih, runSegs]
    · simp [transLoopT, segsFrom, hc, ih]

theorem rawDotSegs_ne_nil (cs : List Char) : rawDotSegs cs ≠ [] := by
  cases cs with
  | nil => simp [rawDotSegs]
  | cons c cs =>
    simp only [rawDotSegs]
    split_ifs
    · simp
    · cases h : rawDotSegs cs <;> simp

theorem segsFrom_eq_rawDotSegs (cs : List Char) :
    ∀ seg h t, seg.length ≤ segCap → rawDotSegs cs = h :: t →
      segsFrom seg cs = ((seg ++ h.map sanitizeChar).take segCap) :: t.map sanTrunc := by
  induction cs with
  | nil =>
    intro seg h t hlen hraw
    rw [rawDotSegs] at hraw
    injection hraw with e1 e2
    subst e1; subst e2
    simp [segsFrom, List.take_of_length_le hlen]
  | cons c cs ih =>
    intro seg h t hlen hraw
    by_cases hc : c = '.'
    · subst hc
      rw [rawDotSegs, if_pos rfl] at hraw
      injection hraw with e1 e2
      subst e1
      obtain ⟨h2, t2, hraw2⟩ := List.exists_cons_of_ne_nil (rawDotSegs_ne_nil cs)
      rw [segsFrom, if_pos rfl, ih [] h2 t2 (by simp [segCap]) hraw2, ← e2, hraw2]
      simp [sanTrunc, List.map_take, List.take_of_length_le hlen]
    · obtain ⟨h2, t2, hraw2⟩ := List.exists_cons_of_ne_nil (rawDotSegs_ne_nil cs)
      simp only [rawDotSegs, hraw2, if_neg hc] at hraw
      injection hraw with e1 e2
      subst e1; subst e2
      rw [segsFrom, if_neg hc]
      by_cases hl : seg.length < segCap
      · have hlen2 : (seg ++ [sanitizeChar c]).length ≤ segCap := by
          simp only [List.length_append, List.length_cons, List.length_nil]; omega
        rw [if_pos hl, ih _ h2 t2 hlen2 hraw2]
        simp [List.append_assoc]
      · have heq : seg.length = segCap := le_antisymm hlen (not_lt.mp hl)
        rw [if_neg hl, ih _ h2 t2 hlen hraw2]
        have ha : (seg ++ List.map sanitizeChar h2).take segCap = seg := by
          rw [← heq]; exact List.take_left seg _
        have hb : (seg ++ List.map sanitizeChar (c :: h2)).take segCap = seg := by
          rw [← heq]; exact List.take_left seg _
        rw [ha, hb]

theorem segsFrom_nil_eq (cs : List Char) :
    segsFrom [] cs = (rawDotSegs cs).map sanTrunc := by
  obtain ⟨h, t, hraw⟩ := List.exists_cons_of_ne_nil (rawDotSegs_ne_nil cs)
  rw [segsFrom_eq_rawDotSegs cs [] h t (by simp) hraw, hraw]
  simp [sanTrunc, List.map_take]

/-- The translator with every allocation succeeding always succeeds, and
its result is the segment-level fold. -/
theorem translateName_eq (name pfx : List Char) :
    translateName name pfx =
      some (runSegs pfx.length ⟨pfx, [], 0, false⟩ ((rawDotSegs name).map sanTrunc)) := by
  rw [translateName, prometheus_format_metric_name]
  simp only [bufAppendT, tapeStep, if_pos, List.nil_append]
  rw [transLoopT_nil, segsFrom_nil_eq]

theorem flushSeg_empty (pl : Nat) (st : TransState) {s : List Char} (he : s.isEmpty = true) :
    flushSeg pl st s = st := by
  rw [flushSeg, if_pos he]

theorem flushSeg_numeric (pl : Nat) (st : TransState) {s : List Char}
    (he : ¬s.isEmpty = true) (hd : s.all isDigitChar = true) :
    (flushSeg pl st s).nameBuf = st.nameBuf ∧ (flushSeg pl st s).inNumSeq = true := by
  rw [flushSeg, if_neg he, if_pos hd]
  split_ifs <;> simp

theorem flushSeg_text (pl : Nat) (st : TransState) {s : List Char}
    (he : ¬s.isEmpty = true) (hd : ¬s.all isDigitChar = true) :
    flushSeg pl st s =
      { st with
        nameBuf := st.nameBuf ++
          (if pl < st.nameBuf.length ∧ st.inNumSeq = false then ['_'] else []) ++ s,
        inNumSeq := false } := by
  rw [flushSeg, if_neg he, if_neg hd]

theorem flushSeg_numeric_eq (pl : Nat) (st : TransState) {s : List Char}
    (he : ¬s.isEmpty = true) (hd : s.all isDigitChar = true) :
    flushSeg pl st s =
      if st.labelIndex < 4 then
        { st with
          labelsBuf := st.labelsBuf ++ (if st.labelsBuf.isEmpty then [] else [',']) ++
            labelNameAt st.labelIndex ++ ['=', '"'] ++ s ++ ['"'],
          labelIndex := st.labelIndex + 1, inNumSeq := true }
      else { st with inNumSeq := true } := by
  rw [flushSeg, if_neg he, if_pos hd]

theorem runSegs_nameBuf (pl : Nat) (segs : List (List Char)) :
    ∀ st, pl ≤ st.nameBuf.length →
      (runSegs pl st segs).nameBuf =
        st.nameBuf ++ specJoinSegs (decide (pl < st.nameBuf.length)) st.inNumSeq segs := by
  induction segs with
  | nil => intro st _; simp [runSegs, specJoinSegs]
  | cons s rest ih =>
    intro st hle
    rw [runSegs, specJoinSegs]
    by_cases he : s.isEmpty
    · rw [if_pos he, flushSeg_empty pl st he, ih st hle]
    · rw [if_neg he]
      by_cases hd : s.all isDigitChar
      · rw [if_pos hd]
        obtain ⟨hn, hq⟩ := flushSeg_numeric pl st he hd
        have hle2 : pl ≤ (flushSeg pl st s).nameBuf.length := by rw [hn]; exact hle
        rw [ih _ hle2, hn, hq]
      · rw [if_neg hd]
        have hpos : 0 < s.length := by
          cases s with
          | nil => simp at he
          | cons a as => simp
        have hst : flushSeg pl st s =
            { st with
              nameBuf := st.nameBuf ++
                (if pl < st.nameBuf.length ∧ st.inNumSeq = false then ['_'] else []) ++ s,
              inNumSeq := false } := flushSeg_text pl st he hd
        have hle2 : pl ≤ (flushSeg pl st s).nameBuf.length := by
          rw [hst]
          simp only [List.length_append]
          omega
        have hlt : pl < (st.nameBuf ++
            ((if pl < st.nameBuf.length ∧ st.inNumSeq = false then ['_'] else []) ++ s)).length := by
          simp only [List.length_append]; omega
        rw [ih _ hle2, hst]
        simp only [decide_eq_true hlt, decide_eq_true_eq, List.append_assoc]

theorem labelsTail_ge4 (vs : List (List Char)) :
    ∀ k e, 4 ≤ k → labelsTail k e vs = [] := by
  induction vs with
  | nil => intro k e _; rfl
  | cons v vs ih => intro k e hk; rw [labelsTail, if_neg (by omega)]; exact ih k e hk

theorem runSegs_labelsBuf (pl : Nat) (segs : List (List Char)) :
    ∀ st, (runSegs pl st segs).labelsBuf =
      st.labelsBuf ++ labelsTail st.labelIndex st.labelsBuf.isEmpty
        (segs.filter (fun s => !s.isEmpty && s.all isDigitChar)) := by
  induction segs with
  | nil => intro st; simp [runSegs, labelsTail]
  | cons s rest ih =>
    intro st
    rw [runSegs]
    by_cases he : s.isEmpty
    · rw [List.filter_cons, if_neg (by simp [he]), flushSeg_empty pl st he, ih st]
    · by_cases hd : s.all isDigitChar
      · rw [List.filter_cons, if_pos (by simp [he, hd])]
        rw [flushSeg_numeric_eq pl st he hd]
        by_cases hk : st.labelIndex < 4
        · rw [if_pos hk, ih _]
          simp only [labelsTail, if_pos hk]
          have hne : (st.labelsBuf ++ (if st.labelsBuf.isEmpty then [] else [',']) ++
              labelNameAt st.labelIndex ++ ['=', '"'] ++ s ++ ['"']).isEmpty = false := by
            simp [List.isEmpty_iff]
          rw [hne]
          simp [List.append_assoc]
        · rw [if_neg hk, ih _]
          simp only [labelsTail, if_neg hk]
      · rw [List.filter_cons, if_neg (by simp [hd]), flushSeg_text pl st he hd, ih _]

theorem labelsTail_zero (vs : List (List Char)) :
    labelsTail 0 true vs = renderLabels (labelKeys.zip vs) := by
  rcases vs with _ | ⟨a, _ | ⟨b, _ | ⟨c, _ | ⟨d, rest⟩⟩⟩⟩
  · rfl
  · simp [labelsTail, renderLabels, renderLabel, labelKeys, labelNameAt]
  · simp [labelsTail, renderLabels, renderLabel, labelKeys, labelNameAt]
  · simp [labelsTail, renderLabels, renderLabel, labelKeys, labelNameAt]
  · simp [labelsTail, renderLabels, renderLabel, labelKeys, labelNameAt,
      labelsTail_ge4 rest 4 false le_rfl]

/-- The flat name produced by the translator is the configured name pfx
followed by the spec-side join of the sanitized, capped segments. -/
theorem translateName_nameBuf (name pfx : List Char) :
    (translateName name pfx).map TransState.nameBuf =
      some (pfx ++ specJoinSegs false false ((rawDotSegs name).map sanTrunc)) := by
  rw [translateName_eq]
  simp only [Option.map_some']
  congr 1
  have h := runSegs_nameBuf pfx.length ((rawDotSegs name).map sanTrunc) ⟨pfx, [], 0, false⟩ le_rfl
  simpa using h

/-- The labels buffer produced by the translator renders the ordered
pairing of the four positional keys with the numeric segments. -/
theorem translateName_labelsBuf (name pfx : List Char) :
    (translateName name pfx).map TransState.labelsBuf =
      some (renderLabels (labelKeys.zip (numSegsOf name))) := by
  rw [translateName_eq]
  simp only [Option.map_some']
  congr 1
  have h := runSegs_labelsBuf pfx.length ((rawDotSegs name).map sanTrunc) ⟨pfx, [], 0, false⟩
  rw [h, ← labelsTail_zero]
  rfl

/-! ### Generation pass under the all-allocations-succeed tape -/

theorem bufAppendT_nil (buf d : List Char) : bufAppendT [] buf d = (some (buf ++ d), []) := rfl

theorem prometheus_format_metric_name_nil (name pfx : List Char) :
    prometheus_format_metric_name [] name pfx =
      (some (runSegs pfx.length ⟨pfx, [], 0, false⟩ ((rawDotSegs name).map sanTrunc)), []) := by
  rw [prometheus_format_metric_name]
  simp only [bufAppendT, tapeStep, if_pos, List.nil_append]
  rw [transLoopT_nil, segsFrom_nil_eq]

theorem appendEvs_nil (ds : List (List Char)) :
    appendEvs [] ds = (some (ds.map Ev.bufAppend), []) := by
  induction ds with
  | nil => rfl
  | cons d ds ih => simp [appendEvs, tapeStep, ih]

theorem bytesOf_append (a b : List Ev) : bytesOf (a ++ b) = bytesOf a ++ bytesOf b := by
  simp [bytesOf]

theorem bytesOf_bufAppends (ds : List (List Char)) :
    bytesOf (ds.map Ev.bufAppend) = ds.flatten := by
  induction ds with
  | nil => rfl
  | cons d ds ih => simp [bytesOf, evBytes] at ih ⊢; exact ih

theorem renderLines_append (a b : List PromLine) :
    renderLines (a ++ b) = renderLines a ++ renderLines b := by
  simp [renderLines]

theorem processRecord_nil_skip (cfg : PromConfig) (seen : List (List Char)) (r : MetricRecord)
    (h : recordLines cfg seen r = none) :
    processRecord cfg [] seen r = (.skipped [], []) := by
  simp only [recordLines, translateName_eq] at h
  simp only [processRecord, prometheus_format_metric_name_nil]
  set st0 := runSegs (effPfx cfg).length ⟨effPfx cfg, [], 0, false⟩
    ((rawDotSegs r.name).map sanTrunc) with hst0
  by_cases h1 : r.name.isEmpty = true ∨ r.value = none
  · rw [if_pos h1]
  rw [if_neg h1] at h
  rw [if_neg h1]
  by_cases h2 : cfg.no_workers = true ∧ workerDot.isPrefixOf r.name
  · rw [if_pos h2]
  rw [if_neg h2] at h
  rw [if_neg h2]
  by_cases h3 : st0.nameBuf.isEmpty
  · rw [if_pos h3]
  rw [if_neg h3] at h
  exact absurd h (Option.some_ne_none _)

/-- `emitAppends` under the all-succeed tape. -/
theorem emitAppends_nil (chunks : List (List Char)) (v : Int) (seen2 : List (List Char)) :
    emitAppends [] chunks v seen2 =
      (.emitted (chunks.map Ev.bufAppend ++ [Ev.rlock, Ev.readValue v, Ev.rwunlock] ++
        [renderInt v, ['\n']].map Ev.bufAppend) seen2, []) := by
  simp only [emitAppends, appendEvs_nil]

theorem processRecord_nil_emit (cfg : PromConfig) (seen : List (List Char)) (r : MetricRecord)
    {ls : List PromLine} {seen2 : List (List Char)}
    (h : recordLines cfg seen r = some (ls, seen2)) :
    ∃ evs, processRecord cfg [] seen r = (.emitted evs seen2, []) ∧
      bytesOf evs = renderLines ls := by
  simp only [recordLines, translateName_eq] at h
  simp only [processRecord, prometheus_format_metric_name_nil]
  set st0 := runSegs (effPfx cfg).length ⟨effPfx cfg, [], 0, false⟩
    ((rawDotSegs r.name).map sanTrunc) with hst0
  by_cases h1 : r.name.isEmpty = true ∨ r.value = none
  · rw [if_pos h1] at h; cases h
  rw [if_neg h1] at h
  rw [if_neg h1]
  by_cases h2 : cfg.no_workers = true ∧ workerDot.isPrefixOf r.name
  · rw [if_pos h2] at h; cases h
  rw [if_neg h2] at h
  rw [if_neg h2]
  by_cases h3 : st0.nameBuf.isEmpty
  · rw [if_pos h3] at h; cases h
  rw [if_neg h3] at h
  rw [if_neg h3]
  set flat := if r.mtype = MetricType.counter then st0.nameBuf ++ "_total".data
    else st0.nameBuf with hflat
  have hinj := Option.some.inj h
  rw [Prod.mk.injEq] at hinj
  have hls : ls = (if !seen_names_contains seen flat && cfg.include_help then
        [PromLine.help flat r.name] else []) ++
      (if !seen_names_contains seen flat && cfg.include_type then
        [PromLine.tline flat (promTypeName r.mtype)] else []) ++
      [PromLine.sample flat st0.labelsBuf (r.value.getD 0)] := hinj.1.symm
  have hseen2 : seen2 = if !seen_names_contains seen flat then seen_names_add seen flat
      else seen := hinj.2.symm
  -- reduce the _total match in the goal
  have htot : (if r.mtype = MetricType.counter
      then bufAppendT [] st0.nameBuf "_total".data
      else (some st0.nameBuf, [])) = (some flat, []) := by
    rw [hflat]
    by_cases h4 : r.mtype = MetricType.counter
    · rw [if_pos h4, if_pos h4, bufAppendT_nil]
    · rw [if_neg h4, if_neg h4]
  rw [htot]
  simp only [emitPhase]
  rw [emitAppends_nil, hseen2]
  refine ⟨_, rfl, ?_⟩
  rw [hls]
  have hlock : bytesOf [Ev.rlock, Ev.readValue (r.value.getD 0), Ev.rwunlock] = [] := rfl
  rw [bytesOf_append, bytesOf_append, bytesOf_bufAppends, bytesOf_bufAppends, hlock]
  rw [renderLines_append, renderLines_append, emitChunks]
  by_cases h5 : !seen_names_contains seen flat && cfg.include_help
  · rw [if_pos h5, if_pos h5]
    by_cases h6 : !seen_names_contains seen flat && cfg.include_type
    · rw [if_pos h6, if_pos h6]
      by_cases h7 : st0.labelsBuf.isEmpty
      · rw [if_pos h7]
        simp [renderLines, renderLine, h7]
      · rw [if_neg h7]
        simp [renderLines, renderLine, h7]
    · rw [if_neg h6, if_neg h6]
      by_cases h7 : st0.labelsBuf.isEmpty
      · rw [if_pos h7]
        simp [renderLines, renderLine, h7]
      · rw [if_neg h7]
        simp [renderLines, renderLine, h7]
  · rw [if_neg h5, if_neg h5]
    by_cases h6 : !seen_names_contains seen flat && cfg.include_type
    · rw [if_pos h6, if_pos h6]
      by_cases h7 : st0.labelsBuf.isEmpty
      · rw [if_pos h7]
        simp [renderLines, renderLine, h7]
      · rw [if_neg h7]
        simp [renderLines, renderLine, h7]
    · rw [if_neg h6, if_neg h6]
      by_cases h7 : st0.labelsBuf.isEmpty
      · rw [if_pos h7]
        simp [renderLines, renderLine, h7]
      · rw [if_neg h7]
        simp [renderLines, renderLine, h7]

/-- With every allocation succeeding, the generation pass never aborts
and its bytes are exactly the rendering of the line-level view. -/
theorem generateAux_nil (cfg : PromConfig) (rs : List MetricRecord) :
    ∀ seen, ∃ evs, generateAux cfg [] seen rs = some evs ∧
      bytesOf evs = renderLines (outputLinesAux cfg seen rs) := by
  induction rs with
  | nil => intro seen; exact ⟨[], rfl, rfl⟩
  | cons r rest ih =>
    intro seen
    cases hrl : recordLines cfg seen r with
    | none =>
      obtain ⟨evs, he, hb⟩ := ih seen
      refine ⟨evs, ?_, ?_⟩
      · rw [generateAux, processRecord_nil_skip cfg seen r hrl]
        simp [he]
      · rw [hb, outputLinesAux, hrl]
    | some p =>
      obtain ⟨ls, seen2⟩ := p
      obtain ⟨evs1, hp, hb1⟩ := processRecord_nil_emit cfg seen r hrl
      obtain ⟨evs, he, hb⟩ := ih seen2
      refine ⟨evs1 ++ evs, ?_, ?_⟩
      · rw [generateAux, hp]
        simp [he]
      · rw [bytesOf_append, hb1, hb, outputLinesAux, hrl, renderLines_append]

/-- A full pass with every allocation succeeding returns the rendering of
its line-level view. -/
theorem generate_metrics_nil (cfg : PromConfig) (rs : List MetricRecord) :
    prometheus_generate_metrics [] cfg true rs =
      some (renderLines (outputLines cfg rs)) := by
  rw [prometheus_generate_metrics, prometheus_generate_metrics_evs]
  by_cases h : rs.isEmpty
  · rw [if_pos (Or.inr h)]
    have : rs = [] := by
      cases rs with
      | nil => rfl
      | cons a l => simp at h
    rw [this]
    rfl
  · rw [if_neg (by simp [h])]
    obtain ⟨evs, he, hb⟩ := generateAux_nil cfg rs []
    rw [he, outputLines] at *
    simp [hb]

/-! ### Successful operations do not depend on the allocation tape -/

theorem bufAppendT_some {tape : List Bool} {buf d r : List Char} {t : List Bool}
    (h : bufAppendT tape buf d = (some r, t)) : r = buf ++ d := by
  rcases tape with _ | ⟨b, tb⟩
  · simp [bufAppendT, tapeStep] at h
    exact h.1.symm
  · cases b
    · simp [bufAppendT, tapeStep] at h
    · simp [bufAppendT, tapeStep] at h
      exact h.1.symm

theorem appendManyT_some {ds : List (List Char)} :
    ∀ {tape buf r t}, appendManyT tape buf ds = (some r, t) → r = buf ++ ds.flatten := by
  induction ds with
  | nil =>
    intro tape buf r t h
    rw [appendManyT] at h
    rw [Prod.mk.injEq] at h
    simp [← Option.some.inj h.1]
  | cons d ds ih =>
    intro tape buf r t h
    cases hb : bufAppendT tape buf d with
    | mk o t2 =>
      simp only [appendManyT, hb] at h
      cases o with
      | none => simp at h
      | some buf2 =>
        rw [ih h, bufAppendT_some hb]
        simp

theorem flushSegmentT_some {pl : Nat} {st : TransState} {seg : List Char} {st2 : TransState}
    {tape t : List Bool} (h : flushSegmentT pl tape st seg = (some st2, t)) :
    st2 = flushSeg pl st seg := by
  rw [flushSegmentT] at h
  rw [flushSeg]
  by_cases h1 : seg.isEmpty
  · rw [if_pos h1] at h
    rw [if_pos h1]
    rw [Prod.mk.injEq] at h
    exact (Option.some.inj h.1).symm
  rw [if_neg h1] at h
  rw [if_neg h1]
  by_cases h2 : seg.all isDigitChar
  · rw [if_pos h2] at h
    rw [if_pos h2]
    by_cases h3 : st.labelIndex < 4
    · rw [if_pos h3] at h
      rw [if_pos h3]
      cases ha : appendManyT tape st.labelsBuf
          ((if st.labelsBuf.isEmpty then [] else [[',']]) ++
            [labelNameAt st.labelIndex, ['=', '"'], seg, ['"']]) with
      | mk o t2 =>
        rw [ha] at h
        cases o with
        | none => simp at h
        | some lb =>
          simp only at h
          rw [Prod.mk.injEq] at h
          rw [← Option.some.inj h.1, appendManyT_some ha]
          by_cases he : st.labelsBuf.isEmpty
          · simp [he, List.append_assoc]
          · simp [he, List.append_assoc]
    · rw [if_neg h3] at h
      rw [if_neg h3]
      rw [Prod.mk.injEq] at h
      exact (Option.some.inj h.1).symm
  · rw [if_neg h2] at h
    rw [if_neg h2]
    cases ha : appendManyT tape st.nameBuf
        ((if pl < st.nameBuf.length ∧ st.inNumSeq = false then [['_']] else []) ++ [seg]) with
    | mk o t2 =>
      rw [ha] at h
      cases o with
      | none => simp at h
      | some nb =>
        simp only at h
        rw [Prod.mk.injEq] at h
        rw [← Option.some.inj h.1, appendManyT_some ha]
        by_cases hc : pl < st.nameBuf.length ∧ st.inNumSeq = false
        · simp [hc, List.append_assoc]
        · simp [hc, List.append_assoc]

theorem transLoopT_some {pl : Nat} {cs : List Char} :
    ∀ {seg tape st st2 t}, transLoopT pl cs seg tape st = (some st2, t) →
      st2 = runSegs pl st (segsFrom seg cs) := by
  induction cs with
  | nil =>
    intro seg tape st st2 t h
    rw [transLoopT] at h
    rw [segsFrom, runSegs, runSegs]
    exact flushSegmentT_some h
  | cons c cs ih =>
    intro seg tape st st2 t h
    rw [transLoopT] at h
    by_cases hc : c = '.'
    · rw [if_pos hc] at h
      cases hf : flushSegmentT pl tape st seg with
      | mk o t2 =>
        rw [hf] at h
        cases o with
        | none => simp at h
        | some st3 =>
          simp only at h
          rw [segsFrom, if_pos hc, runSegs, ← flushSegmentT_some hf]
          exact ih h
    · rw [if_neg hc] at h
      rw [segsFrom, if_neg hc]
      exact ih h

theorem prometheus_format_metric_name_some {tape : List Bool} {name pfx : List Char}
    {st : TransState} {t : List Bool}
    (h : prometheus_format_metric_name tape name pfx = (some st, t)) :
    st = runSegs pfx.length ⟨pfx, [], 0, false⟩ ((rawDotSegs name).map sanTrunc) := by
  rw [prometheus_format_metric_name] at h
  cases hb : bufAppendT tape [] pfx with
  | mk o t2 =>
    rw [hb] at h
    cases o with
    | none => simp at h
    | some nb =>
      have hnb := bufAppendT_some hb
      rw [List.nil_append] at hnb
      rw [← segsFrom_nil_eq, transLoopT_some h, hnb]

theorem appendEvs_some {ds : List (List Char)} :
    ∀ {tape evs t}, appendEvs tape ds = (some evs, t) → evs = ds.map Ev.bufAppend := by
  induction ds with
  | nil =>
    intro tape evs t h
    rw [appendEvs] at h
    rw [Prod.mk.injEq] at h
    simp [← Option.some.inj h.1]
  | cons d ds ih =>
    intro tape evs t h
    cases ht : tapeStep tape with
    | mk ok t1 =>
      simp only [appendEvs, ht] at h
      cases ok with
      | false => simp at h
      | true =>
        simp only [if_pos] at h
        cases hrec : appendEvs t1 ds with
        | mk o t2 =>
          rw [hrec] at h
          cases o with
          | none => simp at h
          | some evs2 =>
            simp only at h
            rw [Prod.mk.injEq] at h
            rw [← Option.some.inj h.1, ih hrec, List.map_cons]

/-- `emitAppends` never produces a skipped record: its outcomes are
`aborted` (a failing output-buffer append) or `emitted`. -/
theorem emitAppends_not_skipped (tape : List Bool) (chunks : List (List Char)) (v : Int)
    (seen2 : List (List Char)) :
    (emitAppends tape chunks v seen2).1 = RecResult.aborted ∨
    ∃ evs s2, (emitAppends tape chunks v seen2).1 = RecResult.emitted evs s2 := by
  rw [emitAppends.eq_def]
  split
  · exact Or.inl rfl
  · split
    · exact Or.inl rfl
    · exact Or.inr ⟨_, _, rfl⟩

/-- A record emission that succeeded under some tape produces the same
events and seen-set under the all-succeed tape. -/
theorem emitAppends_some_emitted {tape : List Bool} {chunks : List (List Char)} {v : Int}
    {seen2 : List (List Char)} {evs : List Ev} {s2 : List (List Char)} {t : List Bool}
    (h : emitAppends tape chunks v seen2 = (.emitted evs s2, t)) :
    emitAppends [] chunks v seen2 = (.emitted evs s2, []) := by
  rw [emitAppends.eq_def] at h
  split at h
  · cases h
  · split at h
    · cases h
    · rename_i x1 evs1 t3 ha x2 evs2 t4 ha2
      rw [Prod.mk.injEq] at h
      obtain ⟨h5, -⟩ := h
      obtain ⟨h6, h7⟩ := RecResult.emitted.inj h5
      rw [emitAppends_nil, ← appendEvs_some ha, ← appendEvs_some ha2, h6, h7]

theorem emitPhase_some_emitted {cfg : PromConfig} {tape : List Bool}
    {seen : List (List Char)} {r : MetricRecord} {flat lbs : List Char}
    {evs : List Ev} {seen2 : List (List Char)} {t : List Bool}
    (h : emitPhase cfg tape seen r flat lbs = (.emitted evs seen2, t)) :
    emitPhase cfg [] seen r flat lbs = (.emitted evs seen2, []) := by
  rw [emitPhase] at h
  rw [emitPhase]
  exact emitAppends_some_emitted h

theorem processRecord_some_emitted {cfg : PromConfig} {tape : List Bool}
    {seen : List (List Char)} {r : MetricRecord} {evs : List Ev}
    {seen2 : List (List Char)} {t : List Bool}
    (h : processRecord cfg tape seen r = (.emitted evs seen2, t)) :
    processRecord cfg [] seen r = (.emitted evs seen2, []) := by
  rw [processRecord] at h
  simp only [processRecord, prometheus_format_metric_name_nil]
  by_cases h1 : r.name.isEmpty = true ∨ r.value = none
  · rw [if_pos h1] at h; cases h
  rw [if_neg h1] at h
  rw [if_neg h1]
  by_cases h2 : cfg.no_workers = true ∧ workerDot.isPrefixOf r.name
  · rw [if_pos h2] at h; cases h
  rw [if_neg h2] at h
  rw [if_neg h2]
  cases hf : prometheus_format_metric_name tape r.name (effPfx cfg) with
  | mk o t1 =>
    rw [hf] at h
    cases o with
    | none => simp at h
    | some st =>
      simp only at h
      have hst := prometheus_format_metric_name_some hf
      subst hst
      by_cases h3 : (runSegs (effPfx cfg).length ⟨effPfx cfg, [], 0, false⟩
          ((rawDotSegs r.name).map sanTrunc)).nameBuf.isEmpty
      · rw [if_pos h3] at h; cases h
      rw [if_neg h3] at h
      rw [if_neg h3]
      by_cases h4 : r.mtype = MetricType.counter
      · rw [if_pos h4] at h
        rw [if_pos h4, bufAppendT_nil]
        cases hb : bufAppendT t1 (runSegs (effPfx cfg).length ⟨effPfx cfg, [], 0, false⟩
            ((rawDotSegs r.name).map sanTrunc)).nameBuf "_total".data with
        | mk o2 t2 =>
          rw [hb] at h
          cases o2 with
          | none => simp at h
          | some flat =>
            simp only at h
            rw [← bufAppendT_some hb]
            exact emitPhase_some_emitted h
      · rw [if_neg h4] at h
        rw [if_neg h4]
        simp only at h
        exact emitPhase_some_emitted h

/-- A skipped record contributes no bytes to the output buffer. -/
theorem processRecord_skipped_cases {cfg : PromConfig} {tape : List Bool}
    {seen : List (List Char)} {r : MetricRecord} {evs : List Ev} {t : List Bool}
    (h : processRecord cfg tape seen r = (.skipped evs, t)) :
    evs = [] ∨ evs = [Ev.logmsg] := by
  rw [processRecord] at h
  by_cases h1 : r.name.isEmpty = true ∨ r.value = none
  · rw [if_pos h1] at h
    rw [Prod.mk.injEq] at h
    exact Or.inl (RecResult.skipped.inj h.1).symm
  rw [if_neg h1] at h
  by_cases h2 : cfg.no_workers = true ∧ workerDot.isPrefixOf r.name
  · rw [if_pos h2] at h
    rw [Prod.mk.injEq] at h
    exact Or.inl (RecResult.skipped.inj h.1).symm
  rw [if_neg h2] at h
  cases hf : prometheus_format_metric_name tape r.name (effPfx cfg) with
  | mk o t1 =>
    rw [hf] at h
    cases o with
    | none =>
      simp only at h
      rw [Prod.mk.injEq] at h
      exact Or.inr (RecResult.skipped.inj h.1).symm
    | some st =>
      simp only at h
      by_cases h3 : st.nameBuf.isEmpty
      · rw [if_pos h3] at h
        rw [Prod.mk.injEq] at h
        exact Or.inl (RecResult.skipped.inj h.1).symm
      rw [if_neg h3] at h
      cases htot : (if r.mtype = MetricType.counter
          then bufAppendT t1 st.nameBuf "_total".data
          else (some st.nameBuf, t1)) with
      | mk o2 t2 =>
        rw [htot] at h
        cases o2 with
        | none =>
          simp only at h
          rw [Prod.mk.injEq] at h
          exact Or.inr (RecResult.skipped.inj h.1).symm
        | some flat =>
          simp only at h
          rw [emitPhase] at h
          rcases emitAppends_not_skipped t2 (emitChunks cfg seen r flat st.labelsBuf)
              (r.value.getD 0) (if !seen_names_contains seen flat
                then seen_names_add seen flat else seen) with hc | ⟨e2, s2, hc⟩ <;>
            rw [h] at hc <;> cases hc

theorem processRecord_skipped_bytes {cfg : PromConfig} {tape : List Bool}
    {seen : List (List Char)} {r : MetricRecord} {evs : List Ev} {t : List Bool}
    (h : processRecord cfg tape seen r = (.skipped evs, t)) : bytesOf evs = [] := by
  rcases processRecord_skipped_cases h with rfl | rfl <;> rfl

/-- Any successful pass returns the complete output of a sublist of the
records (the skipped ones removed): a truncated buffer is never produced. -/
theorem generateAux_some_sublist (cfg : PromConfig) :
    ∀ (rs : List MetricRecord) (tape : List Bool) (seen : List (List Char)) (evs : List Ev),
      generateAux cfg tape seen rs = some evs →
      ∃ rs2, List.Sublist rs2 rs ∧ ∃ evs2, generateAux cfg [] seen rs2 = some evs2 ∧
        bytesOf evs2 = bytesOf evs := by
  intro rs
  induction rs with
  | nil =>
    intro tape seen evs h
    rw [generateAux] at h
    exact ⟨[], List.Sublist.refl [], [], rfl, by rw [← Option.some.inj h]⟩
  | cons r rest ih =>
    intro tape seen evs h
    rw [generateAux] at h
    split at h
    · cases h
    · rename_i evsk t hp
      cases hg : generateAux cfg t seen rest with
      | none => rw [hg] at h; cases h
      | some evs0 =>
        rw [hg] at h
        rw [Option.map_some'] at h
        obtain ⟨rs2, hsub, evs2, hgen, hb⟩ := ih t seen evs0 hg
        refine ⟨rs2, List.Sublist.cons r hsub, evs2, hgen, ?_⟩
        rw [hb, ← Option.some.inj h, bytesOf_append, processRecord_skipped_bytes hp,
          List.nil_append]
    · rename_i evse seen2 t hp
      cases hg : generateAux cfg t seen2 rest with
      | none => rw [hg] at h; cases h
      | some evs0 =>
        rw [hg] at h
        rw [Option.map_some'] at h
        obtain ⟨rs2, hsub, evs2, hgen, hb⟩ := ih t seen2 evs0 hg
        refine ⟨r :: rs2, List.Sublist.cons₂ r hsub, evse ++ evs2, ?_, ?_⟩
        · rw [generateAux, processRecord_some_emitted hp]
          show (generateAux cfg [] seen2 rs2).map (evse ++ ·) = some (evse ++ evs2)
          rw [hgen, Option.map_some']
        · rw [← Option.some.inj h, bytesOf_append, bytesOf_append, hb]

/-- Top-level form: any buffer returned by `prometheus_generate_metrics`
is the complete output of some sublist of the registry records. -/
theorem generate_metrics_some_sublist (cfg : PromConfig) (tape : List Bool)
    (rs : List MetricRecord) (buf : List Char)
    (h : prometheus_generate_metrics tape cfg true rs = some buf) :
    ∃ rs2, List.Sublist rs2 rs ∧
      prometheus_generate_metrics [] cfg true rs2 = some buf := by
  rw [prometheus_generate_metrics, prometheus_generate_metrics_evs] at h
  by_cases he : rs.isEmpty
  · rw [if_pos (Or.inr he)] at h
    refine ⟨[], List.nil_sublist rs, ?_⟩
    rw [← Option.some.inj h]
    rfl
  · rw [if_neg (by simp [he])] at h
    cases hg : generateAux cfg tape [] rs with
    | none => rw [hg] at h; cases h
    | some evs =>
      rw [hg, Option.map_some'] at h
      obtain ⟨rs2, hsub, evs2, hgen, hb⟩ := generateAux_some_sublist cfg rs tape [] evs hg
      refine ⟨rs2, hsub, ?_⟩
      rw [prometheus_generate_metrics, prometheus_generate_metrics_evs]
      by_cases he2 : rs2.isEmpty
      · rw [if_pos (Or.inr he2)]
        have : rs2 = [] := by
          cases rs2 with
          | nil => rfl
          | cons a l => simp at he2
        rw [this, generateAux] at hgen
        rw [← Option.some.inj h, ← hb, ← Option.some.inj hgen]
        rfl
      · rw [if_neg (by simp [he2]), hgen, Option.map_some', hb, ← Option.some.inj h]

/-! ### Lock discipline of the generation pass -/

/-- The events of a successful emission: buffer appends, then exactly the
`rlock` / one value read / `rwunlock` block, then the value appends. -/
theorem emitAppends_emitted_shape {tape : List Bool} {chunks : List (List Char)} {v : Int}
    {seen2 : List (List Char)} {evs : List Ev} {s2 : List (List Char)} {t : List Bool}
    (h : emitAppends tape chunks v seen2 = (.emitted evs s2, t)) :
    evs = chunks.map Ev.bufAppend ++ [Ev.rlock, Ev.readValue v, Ev.rwunlock] ++
      [renderInt v, ['\n']].map Ev.bufAppend := by
  have h2 := emitAppends_some_emitted h
  rw [emitAppends_nil, Prod.mk.injEq] at h2
  exact (RecResult.emitted.inj h2.1).1.symm

theorem processRecord_emitted_shape {cfg : PromConfig} {tape : List Bool}
    {seen : List (List Char)} {r : MetricRecord} {evs : List Ev}
    {seen2 : List (List Char)} {t : List Bool}
    (h : processRecord cfg tape seen r = (.emitted evs seen2, t)) :
    ∃ (ds : List (List Char)) (v : Int),
      evs = ds.map Ev.bufAppend ++ [Ev.rlock, Ev.readValue v, Ev.rwunlock] ++
        [renderInt v, ['\n']].map Ev.bufAppend := by
  rw [processRecord] at h
  by_cases h1 : r.name.isEmpty = true ∨ r.value = none
  · rw [if_pos h1] at h
    simp at h
  rw [if_neg h1] at h
  by_cases h2 : cfg.no_workers = true ∧ workerDot.isPrefixOf r.name
  · rw [if_pos h2] at h
    simp at h
  rw [if_neg h2] at h
  cases hf : prometheus_format_metric_name tape r.name (effPfx cfg) with
  | mk o t1 =>
    rw [hf] at h
    cases o with
    | none =>
      simp at h
    | some st =>
      simp only at h
      by_cases h3 : st.nameBuf.isEmpty
      · rw [if_pos h3] at h
        simp at h
      rw [if_neg h3] at h
      cases htot : (if r.mtype = MetricType.counter
          then bufAppendT t1 st.nameBuf "_total".data
          else (some st.nameBuf, t1)) with
      | mk o2 t2 =>
        rw [htot] at h
        cases o2 with
        | none =>
          simp at h
        | some flat =>
          simp only at h
          rw [emitPhase] at h
          exact ⟨_, _, emitAppends_emitted_shape h⟩

theorem criticalSectionsOk_bufAppends (ds : List (List Char)) (rest : List Ev) :
    criticalSectionsOk (ds.map Ev.bufAppend ++ rest) = criticalSectionsOk rest := by
  induction ds with
  | nil => rfl
  | cons d ds ih =>
    rw [List.map_cons, List.cons_append]
    rw [show criticalSectionsOk (Ev.bufAppend d :: (ds.map Ev.bufAppend ++ rest)) =
      criticalSectionsOk (ds.map Ev.bufAppend ++ rest) from rfl, ih]

theorem criticalSectionsOk_lock_block (v : Int) (rest : List Ev) :
    criticalSectionsOk ([Ev.rlock, Ev.readValue v, Ev.rwunlock] ++ rest) =
      criticalSectionsOk rest := rfl

theorem wlock_not_mem_bufAppends (ds : List (List Char)) :
    Ev.wlock ∉ ds.map Ev.bufAppend := by
  intro hm
  obtain ⟨d, -, hd⟩ := List.mem_map.mp hm
  cases hd

/-- Every trace of a generation run keeps the lock discipline: only read
locks, each spanning exactly one value read. -/
theorem generateAux_lock_discipline (cfg : PromConfig) :
    ∀ (rs : List MetricRecord) (tape : List Bool) (seen : List (List Char)) (evs : List Ev),
      generateAux cfg tape seen rs = some evs →
      criticalSectionsOk evs = true ∧ Ev.wlock ∉ evs := by
  intro rs
  induction rs with
  | nil =>
    intro tape seen evs h
    rw [generateAux] at h
    rw [← Option.some.inj h]
    exact ⟨rfl, by simp⟩
  | cons r rest ih =>
    intro tape seen evs h
    rw [generateAux] at h
    split at h
    · cases h
    · rename_i evsk t hp
      cases hg : generateAux cfg t seen rest with
      | none => rw [hg] at h; cases h
      | some evs0 =>
        rw [hg, Option.map_some'] at h
        obtain ⟨ihc, ihw⟩ := ih t seen evs0 hg
        rw [← Option.some.inj h]
        rcases processRecord_skipped_cases hp with rfl | rfl
        · exact ⟨by rw [List.nil_append]; exact ihc, by rw [List.nil_append]; exact ihw⟩
        · constructor
          · rw [List.singleton_append,
              show criticalSectionsOk (Ev.logmsg :: evs0) = criticalSectionsOk evs0 from rfl]
            exact ihc
          · rw [List.singleton_append]
            intro hm
            rcases List.mem_cons.mp hm with hm | hm
            · cases hm
            · exact ihw hm
    · rename_i evse seen2 t hp
      cases hg : generateAux cfg t seen2 rest with
      | none => rw [hg] at h; cases h
      | some evs0 =>
        rw [hg, Option.map_some'] at h
        obtain ⟨ihc, ihw⟩ := ih t seen2 evs0 hg
        rw [← Option.some.inj h]
        obtain ⟨ds, v, hshape⟩ := processRecord_emitted_shape hp
        rw [hshape]
        constructor
        · rw [List.append_assoc, List.append_assoc, criticalSectionsOk_bufAppends,
            criticalSectionsOk_lock_block, criticalSectionsOk_bufAppends]
          exact ihc
        · intro hm
          rw [List.append_assoc, List.append_assoc] at hm
          rcases List.mem_append.mp hm with hm | hm
          · exact wlock_not_mem_bufAppends ds hm
          rcases List.mem_append.mp hm with hm | hm
          · simp at hm
          rcases List.mem_append.mp hm with hm | hm
          · exact wlock_not_mem_bufAppends _ hm
          · exact ihw hm

/-! ### HELP/TYPE deduplication -/

theorem seen_contains_iff (seen : List (List Char)) (n : List Char) :
    seen_names_contains seen n = true ↔ n ∈ seen := by
  simp [seen_names_contains]

/-- A non-skipped record contributes its optional HELP line, optional TYPE
line, and one sample line, and adds its flat name to the seen set iff the
name was new. -/
theorem recordLines_shape (cfg : PromConfig) (seen : List (List Char)) (r : MetricRecord)
    {ls : List PromLine} {seen2 : List (List Char)}
    (h : recordLines cfg seen r = some (ls, seen2)) :
    ∃ flat lb v,
      ls = (if !seen_names_contains seen flat && cfg.include_help then
          [PromLine.help flat r.name] else []) ++
        (if !seen_names_contains seen flat && cfg.include_type then
          [PromLine.tline flat (promTypeName r.mtype)] else []) ++
        [PromLine.sample flat lb v] ∧
      seen2 = (if !seen_names_contains seen flat then seen_names_add seen flat else seen) := by
  simp only [recordLines, translateName_eq] at h
  by_cases h1 : r.name.isEmpty = true ∨ r.value = none
  · rw [if_pos h1] at h; cases h
  rw [if_neg h1] at h
  by_cases h2 : cfg.no_workers = true ∧ workerDot.isPrefixOf r.name
  · rw [if_pos h2] at h; cases h
  rw [if_neg h2] at h
  set st0 := runSegs (effPfx cfg).length ⟨effPfx cfg, [], 0, false⟩
    ((rawDotSegs r.name).map sanTrunc) with hst0
  by_cases h3 : st0.nameBuf.isEmpty
  · rw [if_pos h3] at h; cases h
  rw [if_neg h3] at h
  have hinj := Option.some.inj h
  rw [Prod.mk.injEq] at hinj
  exact ⟨_, _, _, hinj.1.symm, hinj.2.symm⟩

/-- The HELP/TYPE deduplication invariant over the line-level pass, with
both comment kinds enabled: flat names already seen produce no further
HELP/TYPE lines, and any sampled new flat name has exactly one HELP and
one TYPE line, adjacent, placed before its first sample line. -/
theorem outputLinesAux_dedup (cfg : PromConfig) (hh : cfg.include_help = true)
    (ht : cfg.include_type = true) (rs : List MetricRecord) :
    ∀ seen f,
      (f ∈ seen →
        (outputLinesAux cfg seen rs).countP (isHelpFor f) = 0 ∧
        (outputLinesAux cfg seen rs).countP (isTypeFor f) = 0) ∧
      (f ∉ seen → (outputLinesAux cfg seen rs).any (isSampleFor f) = true →
        ∃ A B raw pt lb v,
          outputLinesAux cfg seen rs =
            A ++ PromLine.help f raw :: PromLine.tline f pt ::
              PromLine.sample f lb v :: B ∧
          A.countP (isSampleFor f) = 0 ∧
          (A ++ B).countP (isHelpFor f) = 0 ∧
          (A ++ B).countP (isTypeFor f) = 0) := by
  induction rs with
  | nil =>
    intro seen f
    refine ⟨fun _ => ⟨rfl, rfl⟩, fun _ hs => ?_⟩
    rw [outputLinesAux] at hs
    cases hs
  | cons r rest ih =>
    intro seen f
    cases hrl : recordLines cfg seen r with
    | none =>
      simp only [outputLinesAux, hrl]
      exact ih seen f
    | some p =>
      obtain ⟨ls, seen2⟩ := p
      simp only [outputLinesAux, hrl]
      obtain ⟨flat, lb, v, hls, hseen2⟩ := recordLines_shape cfg seen r hrl
      rw [hh, ht, Bool.and_true] at hls
      rw [hls, hseen2]
      by_cases hc : seen_names_contains seen flat = true
      · -- flat already seen: only a sample line, seen set unchanged
        have hcb : (!seen_names_contains seen flat) = false := by rw [hc]; rfl
        rw [hcb, if_neg (Bool.false_ne_true), if_neg (Bool.false_ne_true),
          if_neg (Bool.false_ne_true)]
        simp only [List.nil_append]
        have hflatmem : flat ∈ seen := (seen_contains_iff seen flat).mp hc
        constructor
        · intro hf
          obtain ⟨ih1, ih2⟩ := (ih seen f).1 hf
          constructor
          · rw [List.countP_append, ih1]
            simp [List.countP_cons, isHelpFor]
          · rw [List.countP_append, ih2]
            simp [List.countP_cons, isTypeFor]
        · intro hf hs
          have hne : ¬flat = f := fun he => hf (he ▸ hflatmem)
          rw [List.any_append, List.any_cons] at hs
          simp only [isSampleFor, decide_eq_false hne, List.any_nil, Bool.false_or,
            Bool.or_false] at hs
          obtain ⟨A2, B2, raw, pt, lb2, v2, hL, hA, hAB1, hAB2⟩ := (ih seen f).2 hf hs
          refine ⟨PromLine.sample flat lb v :: A2, B2, raw, pt, lb2, v2, ?_, ?_, ?_, ?_⟩
          · rw [hL]
            simp
          · rw [List.countP_cons, hA]
            simp [isSampleFor, decide_eq_false hne]
          · rw [List.cons_append, List.countP_cons, hAB1]
            simp [isHelpFor]
          · rw [List.cons_append, List.countP_cons, hAB2]
            simp [isTypeFor]
      · -- flat is new: HELP, TYPE, sample; flat added to the seen set
        have hcb : (!seen_names_contains seen flat) = true := by
          cases hcv : seen_names_contains seen flat
          · rfl
          · exact absurd hcv hc
        rw [hcb, if_pos rfl, if_pos rfl, if_pos rfl]
        simp only [List.singleton_append, List.cons_append, List.nil_append]
        have hflatmem : flat ∉ seen := fun hm => hc ((seen_contains_iff seen flat).mpr hm)
        constructor
        · intro hf
          have hne : ¬flat = f := fun he => hflatmem (he ▸ hf)
          have hmem2 : f ∈ seen_names_add seen flat := List.mem_cons_of_mem flat hf
          obtain ⟨ih1, ih2⟩ := (ih (seen_names_add seen flat) f).1 hmem2
          constructor
          · rw [List.countP_cons, List.countP_cons, List.countP_cons, ih1]
            simp [isHelpFor, decide_eq_false hne]
          · rw [List.countP_cons, List.countP_cons, List.countP_cons, ih2]
            simp [isTypeFor, decide_eq_false hne]
        · intro hf hs
          by_cases hfe : flat = f
          · subst hfe
            have hmem2 : flat ∈ seen_names_add seen flat := List.mem_cons_self flat seen
            obtain ⟨ih1, ih2⟩ := (ih (seen_names_add seen flat) flat).1 hmem2
            refine ⟨[], outputLinesAux cfg (seen_names_add seen flat) rest, r.name,
              promTypeName r.mtype, lb, v, by simp, rfl, ?_, ?_⟩
            · simpa using ih1
            · simpa using ih2
          · have hf2 : f ∉ seen_names_add seen flat := by
              intro hm
              rcases List.mem_cons.mp hm with hm | hm
              · exact hfe hm.symm
              · exact hf hm
            rw [List.any_cons, List.any_cons, List.any_cons] at hs
            simp only [isSampleFor, isHelpFor, isTypeFor, decide_eq_false hfe,
              Bool.false_or, Bool.or_false] at hs
            obtain ⟨A2, B2, raw, pt, lb2, v2, hL, hA, hAB1, hAB2⟩ :=
              (ih (seen_names_add seen flat) f).2 hf2 hs
            refine ⟨PromLine.help flat r.name :: PromLine.tline flat (promTypeName r.mtype) ::
              PromLine.sample flat lb v :: A2, B2, raw, pt, lb2, v2, ?_, ?_, ?_, ?_⟩
            · rw [hL]
              simp
            · rw [List.countP_cons, List.countP_cons, List.countP_cons, hA]
              simp [isSampleFor, isHelpFor, isTypeFor, decide_eq_false hfe]
            · rw [List.cons_append, List.cons_append, List.cons_append, List.countP_cons,
                List.countP_cons, List.countP_cons, hAB1]
              simp [isHelpFor, isSampleFor, isTypeFor, decide_eq_false hfe]
            · rw [List.cons_append, List.cons_append, List.cons_append, List.countP_cons,
                List.countP_cons, List.countP_cons, hAB2]
              simp [isHelpFor, isSampleFor, isTypeFor, decide_eq_false hfe]

/-! ### Helper facts about over-long segments -/

theorem rawDotSegs_no_dot {s : List Char} (h : '.' ∉ s) : rawDotSegs s = [s] := by
  induction s with
  | nil => rfl
  | cons c cs ih =>
    have h1 : ¬c = '.' := fun hc => h (by rw [hc]; exact List.mem_cons_self _ _)
    have h2 : '.' ∉ cs := fun hm => h (List.mem_cons_of_mem _ hm)
    rw [rawDotSegs, if_neg h1, ih h2]

theorem sanTrunc_long_replicate {n : Nat} {c : Char} (hn : segCap ≤ n)
    (h : isValidNameChar c = true) :
    sanTrunc (List.replicate n c) = List.replicate segCap c := by
  rw [sanTrunc, List.take_replicate, min_eq_left hn, List.map_replicate, sanitizeChar, if_pos h]

theorem all_isDigit_replicate7 (n : Nat) : (List.replicate n '7').all isDigitChar = true := by
  induction n with
  | zero => rfl
  | succ m ih => rw [List.replicate_succ, List.all_cons, ih]; rfl

theorem specJoinSegs_single_text {s : List Char} (hne : s.isEmpty = false)
    (hd : s.all isDigitChar = false) :
    specJoinSegs false false [s] = s := by
  rw [specJoinSegs, if_neg (by simp [hne]), if_neg (by simp [hd])]
  simp [specJoinSegs]

theorem rawDotSegs_append_dot {s : List Char} (cs : List Char) (h : '.' ∉ s) :
    rawDotSegs (s ++ '.' :: cs) = s :: rawDotSegs cs := by
  induction s with
  | nil => simp [rawDotSegs]
  | cons c s ih =>
    have h1 : ¬c = '.' := fun hc => h (by rw [hc]; exact List.mem_cons_self _ _)
    have h2 : '.' ∉ s := fun hm => h (List.mem_cons_of_mem _ hm)
    rw [List.cons_append, rawDotSegs, if_neg h1, ih h2]

theorem rawDotSegs_elem_no_dot (cs : List Char) : ∀ s ∈ rawDotSegs cs, '.' ∉ s := by
  induction cs with
  | nil =>
    intro s hs
    rw [rawDotSegs] at hs
    simp only [List.mem_singleton] at hs
    subst hs
    simp
  | cons c cs ih =>
    intro s hs
    rw [rawDotSegs] at hs
    by_cases hc : c = '.'
    · rw [if_pos hc] at hs
      rcases List.mem_cons.mp hs with h1 | h1
      · subst h1; simp
      · exact ih s h1
    · rw [if_neg hc] at hs
      obtain ⟨h2, t2, hraw⟩ := List.exists_cons_of_ne_nil (rawDotSegs_ne_nil cs)
      simp only [hraw] at hs
      rcases List.mem_cons.mp hs with h1 | h1
      · subst h1
        intro hm
        rcases List.mem_cons.mp hm with hm1 | hm1
        · exact hc hm1.symm
        · exact ih h2 (by rw [hraw]; exact List.mem_cons_self _ _) hm1
      · exact ih s (by rw [hraw]; exact List.mem_cons_of_mem _ h1)

theorem joinDots_segs_roundtrip (segs : List (List Char)) (hne : segs ≠ [])
    (hnd : ∀ s ∈ segs, '.' ∉ s) :
    rawDotSegs (joinDots segs) = segs := by
  induction segs with
  | nil => exact absurd rfl hne
  | cons s rest ih =>
    cases rest with
    | nil =>
      rw [show joinDots [s] = s from rfl]
      exact rawDotSegs_no_dot (hnd s (List.mem_cons_self _ _))
    | cons s2 r2 =>
      rw [show joinDots (s :: s2 :: r2) = s ++ '.' :: joinDots (s2 :: r2) from rfl,
        rawDotSegs_append_dot _ (hnd s (List.mem_cons_self _ _)),
        ih (by simp) (fun x hx => hnd x (List.mem_cons_of_mem _ hx))]

theorem sanTrunc_take (s : List Char) : sanTrunc (s.take segCap) = sanTrunc s := by
  rw [sanTrunc, sanTrunc, List.take_take, min_self]

theorem map_sanTrunc_take (segs : List (List Char)) :
    (segs.map (List.take segCap)).map sanTrunc = segs.map sanTrunc := by
  induction segs with
  | nil => rfl
  | cons s rest ih => simp only [List.map_cons, ih, sanTrunc_take]

theorem no_dot_take {s : List Char} (n : Nat) (h : '.' ∉ s) : '.' ∉ s.take n :=
  fun hm => h (List.take_subset _ _ hm)

/-! ### Claim C1 -/

/-- C1, counterexample: on the code, `translate("worker.1.requests", "uwsgi_")`
produces the flat name `uwsgi_workerrequests` (the separator is suppressed
right after the numeric segment, exactly as the claim's own general rule
says), not `uwsgi_worker_requests` as the claim's example states; likewise
`core.1.2.requests` gives `uwsgi_corerequests`, not `uwsgi_core_requests`. -/
theorem c1_counterexample :
    (translateName "worker.1.requests".data "uwsgi_".data).map TransState.nameBuf =
      some "uwsgi_workerrequests".data ∧
    (translateName "worker.1.requests".data "uwsgi_".data).map TransState.nameBuf ≠
      some "uwsgi_worker_requests".data ∧
    (translateName "core.1.2.requests".data "uwsgi_".data).map TransState.nameBuf =
      some "uwsgi_corerequests".data ∧
    (translateName "core.1.2.requests".data "uwsgi_".data).map TransState.nameBuf ≠
      some "uwsgi_core_requests".data := by
  refine ⟨by decide, by decide, by decide, by decide⟩

/-- C1 (amended): `translate("worker.1.requests", "uwsgi_")` returns flat
name `uwsgi_workerrequests` with label list `[(worker,"1")]`, and
`translate("core.1.2.requests", "uwsgi_")` returns `uwsgi_corerequests`
with `[(worker,"1"),(core,"2")]`; in general the flat name is the
configured prefix followed by the sanitized non-numeric segments joined
by `_`, except that no separator is inserted immediately after a
numeric-segment position. -/
theorem c1_amended :
    ((translateName "worker.1.requests".data "uwsgi_".data).map TransState.nameBuf =
        some "uwsgi_workerrequests".data ∧
      (translateName "worker.1.requests".data "uwsgi_".data).map TransState.labelsBuf =
        some (renderLabels [("worker".data, "1".data)])) ∧
    ((translateName "core.1.2.requests".data "uwsgi_".data).map TransState.nameBuf =
        some "uwsgi_corerequests".data ∧
      (translateName "core.1.2.requests".data "uwsgi_".data).map TransState.labelsBuf =
        some (renderLabels [("worker".data, "1".data), ("core".data, "2".data)])) ∧
    (∀ name pfx, (translateName name pfx).map TransState.nameBuf =
        some (pfx ++ specJoinSegs false false ((rawDotSegs name).map sanTrunc))) :=
  ⟨⟨by decide, by decide⟩, ⟨by decide, by decide⟩, translateName_nameBuf⟩

/-! ### Claim C4 -/

/-- C4, counterexample: the code caps a segment at 255 bytes
(`segment_len < sizeof(segment) - 1` with `char segment[256]`), not 256:
a 256-byte segment loses its last byte. -/
theorem c4_counterexample :
    (translateName (List.replicate 256 'a') "uwsgi_".data).map TransState.nameBuf =
      some ("uwsgi_".data ++ List.replicate 255 'a') ∧
    (translateName (List.replicate 256 'a') "uwsgi_".data).map TransState.nameBuf ≠
      some ("uwsgi_".data ++ List.replicate 256 'a') := by
  have hnd : '.' ∉ List.replicate 256 'a' := by
    intro h
    exact absurd (List.eq_of_mem_replicate h) (by decide)
  have h1 : sanTrunc (List.replicate 256 'a') = List.replicate 255 'a' :=
    sanTrunc_long_replicate (by rw [segCap]; omega) (by decide)
  have h2 : (translateName (List.replicate 256 'a') "uwsgi_".data).map TransState.nameBuf =
      some ("uwsgi_".data ++ List.replicate 255 'a') := by
    rw [translateName_nameBuf, rawDotSegs_no_dot hnd, List.map_cons, List.map_nil, h1,
      @specJoinSegs_single_text (List.replicate 255 'a') (by decide) (by decide)]
  refine ⟨h2, ?_⟩
  rw [h2]
  intro hcontra
  have hlen := congrArg List.length (Option.some.inj hcontra)
  simp only [List.length_append, List.length_replicate] at hlen
  omega

/-- C4 (amended): for every input dotted name, each segment is capped at
255 bytes (the C buffer is `char segment[256]` and accumulation stops at
`sizeof(segment) - 1`): truncating every raw dot-separated segment of the
name to its first 255 bytes and rejoining with dots leaves the
translation unchanged, and, in general, the translation of any dotted
name depends only on the first 255 bytes of each of its segments — the
first 255 bytes of an over-long segment are kept and every character
beyond the cap is silently dropped, at every segment position. -/
theorem c4_amended (name pfx : List Char) :
    translateName (joinDots ((rawDotSegs name).map (List.take segCap))) pfx =
      translateName name pfx ∧
    ∀ other : List Char,
      (rawDotSegs other).map (List.take segCap) =
        (rawDotSegs name).map (List.take segCap) →
      translateName other pfx = translateName name pfx := by
  have key : ∀ nm : List Char,
      translateName (joinDots ((rawDotSegs nm).map (List.take segCap))) pfx =
        translateName nm pfx := by
    intro nm
    have hne : (rawDotSegs nm).map (List.take segCap) ≠ [] := by
      intro h
      exact rawDotSegs_ne_nil nm (by simpa using h)
    have hnd : ∀ s ∈ (rawDotSegs nm).map (List.take segCap), '.' ∉ s := by
      intro s hs
      obtain ⟨t, ht, rfl⟩ := List.mem_map.mp hs
      exact no_dot_take _ (rawDotSegs_elem_no_dot nm t ht)
    rw [translateName_eq, translateName_eq,
      joinDots_segs_roundtrip _ hne hnd, map_sanTrunc_take]
  refine ⟨key name, fun other hother => ?_⟩
  rw [← key other, ← key name, hother]

/-- C4 witness: the over-long middle segment of `worker.<300 a>.requests`
is capped at its first 255 bytes: the name translates exactly as
`worker.<255 a>.requests` does, so all 45 bytes beyond the cap of the
middle segment are dropped. -/
theorem c4_amended_witness :
    ((rawDotSegs ("worker".data ++ '.' ::
          (List.replicate 255 'a' ++ '.' :: "requests".data))).map (List.take segCap) =
        (rawDotSegs ("worker".data ++ '.' ::
          (List.replicate 300 'a' ++ '.' :: "requests".data))).map (List.take segCap)) ∧
    translateName ("worker".data ++ '.' :: (List.replicate 255 'a' ++ '.' :: "requests".data))
        "uwsgi_".data =
      translateName ("worker".data ++ '.' :: (List.replicate 300 'a' ++ '.' :: "requests".data))
        "uwsgi_".data := by
  have hw : '.' ∉ "worker".data := by decide
  have hr : '.' ∉ "requests".data := by decide
  have ha300 : '.' ∉ List.replicate 300 'a' := by
    intro h; exact absurd (List.eq_of_mem_replicate h) (by decide)
  have ha255 : '.' ∉ List.replicate 255 'a' := by
    intro h; exact absurd (List.eq_of_mem_replicate h) (by decide)
  have e1 : rawDotSegs ("worker".data ++ '.' ::
      (List.replicate 300 'a' ++ '.' :: "requests".data)) =
      ["worker".data, List.replicate 300 'a', "requests".data] := by
    rw [rawDotSegs_append_dot _ hw, rawDotSegs_append_dot _ ha300, rawDotSegs_no_dot hr]
  have e2 : rawDotSegs ("worker".data ++ '.' ::
      (List.replicate 255 'a' ++ '.' :: "requests".data)) =
      ["worker".data, List.replicate 255 'a', "requests".data] := by
    rw [rawDotSegs_append_dot _ hw, rawDotSegs_append_dot _ ha255, rawDotSegs_no_dot hr]
  have hmaps : (rawDotSegs ("worker".data ++ '.' ::
        (List.replicate 255 'a' ++ '.' :: "requests".data))).map (List.take segCap) =
      (rawDotSegs ("worker".data ++ '.' ::
        (List.replicate 300 'a' ++ '.' :: "requests".data))).map (List.take segCap) := by
    rw [e1, e2]
    simp only [List.map_cons, List.map_nil, segCap, List.take_replicate]
    rw [List.take_of_length_le (show ("worker".data).length ≤ 255 by decide),
      List.take_of_length_le (show ("requests".data).length ≤ 255 by decide),
      min_self, show min 255 300 = 255 from by decide]
  exact ⟨hmaps, (c4_amended ("worker".data ++ '.' ::
    (List.replicate 300 'a' ++ '.' :: "requests".data)) "uwsgi_".data).2 _ hmaps⟩

/-! ### Claim C6 -/

/-- C6, counterexample: a numeric segment after the fourth is not added
as a label, but it does not contribute "nothing" to the flat name: it
suppresses the separator before the following text segment, so deleting
the fifth numeric segment `5` from `a.1.b.2.c.3.d.4.e.5.f` changes the
flat name from `uwsgi_abcdef` to `uwsgi_abcde_f`; moreover a label value
is not the raw numeric segment text: a 300-digit segment's label keeps
only the first 255 digits. -/
theorem c6_counterexample :
    ((translateName "a.1.b.2.c.3.d.4.e.5.f".data "uwsgi_".data).map TransState.nameBuf =
        some "uwsgi_abcdef".data ∧
      (translateName "a.1.b.2.c.3.d.4.e.f".data "uwsgi_".data).map TransState.nameBuf =
        some "uwsgi_abcde_f".data) ∧
    (translateName ('a' :: '.' :: List.replicate 300 '7') "uwsgi_".data).map
        TransState.labelsBuf =
      some (renderLabels [("worker".data, List.replicate 255 '7')]) ∧
    List.replicate 255 '7' ≠ List.replicate 300 '7' := by
  have hd7 : '.' ∉ List.replicate 300 '7' := by
    intro h; exact absurd (List.eq_of_mem_replicate h) (by decide)
  have e2 : rawDotSegs ('a' :: '.' :: List.replicate 300 '7') =
      ['a'] :: [List.replicate 300 '7'] := by
    rw [rawDotSegs, if_neg (by decide), rawDotSegs, if_pos rfl, rawDotSegs_no_dot hd7]
  have h7 : sanTrunc (List.replicate 300 '7') = List.replicate 255 '7' :=
    sanTrunc_long_replicate (by rw [segCap]; omega) (by decide)
  have e3 : numSegsOf ('a' :: '.' :: List.replicate 300 '7') = [List.replicate 255 '7'] := by
    rw [numSegsOf, e2, List.map_cons, List.map_cons, List.map_nil, h7,
      show sanTrunc ['a'] = ['a'] from by decide]
    rw [List.filter_cons, if_neg (by decide), List.filter_cons, List.filter_nil,
      if_pos (show (!(List.replicate 255 '7').isEmpty &&
        (List.replicate 255 '7').all isDigitChar) = true from by
          rw [all_isDigit_replicate7]; decide)]
  have hlab : (translateName ('a' :: '.' :: List.replicate 300 '7') "uwsgi_".data).map
      TransState.labelsBuf = some (renderLabels [("worker".data, List.replicate 255 '7')]) := by
    rw [translateName_labelsBuf, e3]
    rfl
  have hnr : List.replicate 255 '7' ≠ List.replicate 300 '7' := by
    intro h
    have hlen := congrArg List.length h
    simp only [List.length_replicate] at hlen
    omega
  exact ⟨⟨by decide, by decide⟩, hlab, hnr⟩

/-- C6 (amended): the first four numeric segments, in discovery order,
become labels `worker`, `core`, `thread`, `id` with the (255-byte capped)
segment text as value; numeric segments after the fourth yield no label
and their text is never appended to the flat name, though every numeric
segment still marks a numeric position after which the `_` separator is
suppressed. -/
theorem c6_amended (name pfx : List Char) :
    (translateName name pfx).map TransState.labelsBuf =
      some (renderLabels (labelKeys.zip (numSegsOf name))) ∧
    (translateName name pfx).map TransState.nameBuf =
      some (pfx ++ specJoinSegs false false ((rawDotSegs name).map sanTrunc)) :=
  ⟨translateName_labelsBuf name pfx, translateName_nameBuf name pfx⟩

/-! ### Claim C2 -/

/-- C2: with HELP and TYPE emission enabled, one full generation pass
(whose returned bytes render exactly `outputLines`) contains, for every
flat name (after any `_total` suffixing) appearing in a metric sample
line, exactly one `# HELP` line and exactly one `# TYPE` line for that
flat name, and they occur before the first metric line using it, even
when several records translate to the same flat name. -/
theorem c2_help_type_once (cfg : PromConfig) (rs : List MetricRecord)
    (hh : cfg.include_help = true) (ht : cfg.include_type = true) :
    prometheus_generate_metrics [] cfg true rs = some (renderLines (outputLines cfg rs)) ∧
    ∀ f, (outputLines cfg rs).any (isSampleFor f) = true →
      (outputLines cfg rs).countP (isHelpFor f) = 1 ∧
      (outputLines cfg rs).countP (isTypeFor f) = 1 ∧
      ∃ A B raw pt lb v,
        outputLines cfg rs = A ++ PromLine.help f raw :: PromLine.tline f pt ::
          PromLine.sample f lb v :: B ∧
        A.countP (isSampleFor f) = 0 := by
  refine ⟨generate_metrics_nil cfg rs, ?_⟩
  intro f hs
  rw [outputLines] at hs ⊢
  obtain ⟨A, B, raw, pt, lb, v, hL, hA, hAB1, hAB2⟩ :=
    (outputLinesAux_dedup cfg hh ht rs [] f).2 (by simp) hs
  rw [List.countP_append] at hAB1 hAB2
  have hA1 : A.countP (isHelpFor f) = 0 := by omega
  have hB1 : B.countP (isHelpFor f) = 0 := by omega
  have hA2 : A.countP (isTypeFor f) = 0 := by omega
  have hB2 : B.countP (isTypeFor f) = 0 := by omega
  refine ⟨?_, ?_, A, B, raw, pt, lb, v, hL, hA⟩
  · rw [hL, List.countP_append, hA1, List.countP_cons, List.countP_cons, List.countP_cons, hB1]
    simp [isHelpFor, isTypeFor, isSampleFor]
  · rw [hL, List.countP_append, hA2, List.countP_cons, List.countP_cons, List.countP_cons, hB2]
    simp [isHelpFor, isTypeFor, isSampleFor]

/-- C2 witness: two records sharing flat name `uwsgi_workerreq` under
differing labels; the theorem instantiated at this registry. -/
theorem c2_help_type_once_witness :
    (⟨none, false, true, true⟩ : PromConfig).include_help = true ∧
    (⟨none, false, true, true⟩ : PromConfig).include_type = true ∧
    (prometheus_generate_metrics [] ⟨none, false, true, true⟩ true
        [⟨"worker.1.req".data, MetricType.gauge, some 1⟩,
         ⟨"worker.2.req".data, MetricType.gauge, some 2⟩] =
      some (renderLines (outputLines ⟨none, false, true, true⟩
        [⟨"worker.1.req".data, MetricType.gauge, some 1⟩,
         ⟨"worker.2.req".data, MetricType.gauge, some 2⟩])) ∧
    ∀ f, (outputLines ⟨none, false, true, true⟩
        [⟨"worker.1.req".data, MetricType.gauge, some 1⟩,
         ⟨"worker.2.req".data, MetricType.gauge, some 2⟩]).any (isSampleFor f) = true →
      (outputLines ⟨none, false, true, true⟩
        [⟨"worker.1.req".data, MetricType.gauge, some 1⟩,
         ⟨"worker.2.req".data, MetricType.gauge, some 2⟩]).countP (isHelpFor f) = 1 ∧
      (outputLines ⟨none, false, true, true⟩
        [⟨"worker.1.req".data, MetricType.gauge, some 1⟩,
         ⟨"worker.2.req".data, MetricType.gauge, some 2⟩]).countP (isTypeFor f) = 1 ∧
      ∃ A B raw pt lb v,
        outputLines ⟨none, false, true, true⟩
          [⟨"worker.1.req".data, MetricType.gauge, some 1⟩,
           ⟨"worker.2.req".data, MetricType.gauge, some 2⟩] =
          A ++ PromLine.help f raw :: PromLine.tline f pt ::
            PromLine.sample f lb v :: B ∧
        A.countP (isSampleFor f) = 0) :=
  ⟨rfl, rfl, c2_help_type_once ⟨none, false, true, true⟩
    [⟨"worker.1.req".data, MetricType.gauge, some 1⟩,
     ⟨"worker.2.req".data, MetricType.gauge, some 2⟩] rfl rfl⟩

/-! ### Claim C3 -/

/-- C3, counterexample: not every failing buffer-append aborts the pass.
With the third allocation failing — the `_total` suffix append at
plugin.c:246, a buffer-append operation — the pass skips the counter
record and returns a successful buffer holding only the remaining record
(first conjunct), instead of the full buffer the all-succeed run returns
(third conjunct); only a failing append to the output buffer itself
aborts with no buffer (second conjunct). -/
theorem c3_counterexample :
    prometheus_generate_metrics [true, true, false] ⟨none, false, true, true⟩ true
        [⟨"req".data, MetricType.counter, some 5⟩, ⟨"x".data, MetricType.gauge, some 3⟩] =
      some "# HELP uwsgi_x x\n# TYPE uwsgi_x gauge\nuwsgi_x 3\n".data ∧
    prometheus_generate_metrics [true, true, true, false] ⟨none, false, true, true⟩ true
        [⟨"req".data, MetricType.counter, some 5⟩, ⟨"x".data, MetricType.gauge, some 3⟩] =
      none ∧
    prometheus_generate_metrics [] ⟨none, false, true, true⟩ true
        [⟨"req".data, MetricType.counter, some 5⟩, ⟨"x".data, MetricType.gauge, some 3⟩] =
      some ("# HELP uwsgi_req_total req\n# TYPE uwsgi_req_total counter\n".data ++
        "uwsgi_req_total 5\n# HELP uwsgi_x x\n# TYPE uwsgi_x gauge\nuwsgi_x 3\n".data) := by
  exact ⟨by decide, by decide, by decide⟩

/-- C3 (amended): an append to the output buffer failing aborts the
entire pass, which returns an error and no buffer; a NameTranslator
failure (and likewise a failure of the `_total` name-buffer append) only
skips that record and the pass continues with the rest; consequently any
returned buffer is the complete output of a sublist of the records, never
a truncated one. -/
theorem c3_amended (cfg : PromConfig) :
    (∀ tape seen r rest t, processRecord cfg tape seen r = (RecResult.aborted, t) →
      generateAux cfg tape seen (r :: rest) = none) ∧
    (∀ tape seen r rest evs t, processRecord cfg tape seen r = (RecResult.skipped evs, t) →
      generateAux cfg tape seen (r :: rest) =
        (generateAux cfg t seen rest).map (evs ++ ·)) ∧
    (∀ tape seen r t, ¬(r.name.isEmpty = true ∨ r.value = none) →
      ¬(cfg.no_workers = true ∧ workerDot.isPrefixOf r.name) →
      prometheus_format_metric_name tape r.name (effPfx cfg) = (none, t) →
      processRecord cfg tape seen r = (RecResult.skipped [Ev.logmsg], t)) ∧
    (∀ tape rs buf, prometheus_generate_metrics tape cfg true rs = some buf →
      ∃ rs2, List.Sublist rs2 rs ∧ prometheus_generate_metrics [] cfg true rs2 = some buf) := by
  refine ⟨?_, ?_, ?_, fun tape rs buf h => generate_metrics_some_sublist cfg tape rs buf h⟩
  · intro tape seen r rest t hp
    rw [generateAux, hp]
  · intro tape seen r rest evs t hp
    rw [generateAux, hp]
  · intro tape seen r t h1 h2 hf
    rw [processRecord, if_neg h1, if_neg h2, hf]

/-- C3 witness: the amended failure policy applied at concrete inputs:
an output-buffer append failure aborts the two-record pass; a translator
allocation failure (first append failing) skips the first record and the
pass continues; and the partially-failing run of the counterexample is
the complete output of a sublist of its records. -/
theorem c3_amended_witness :
    (generateAux ⟨none, false, true, true⟩ [true, true, false] []
        [⟨"x".data, MetricType.gauge, some 3⟩, ⟨"y".data, MetricType.gauge, some 4⟩] =
      none) ∧
    (generateAux ⟨none, false, true, true⟩ [false] []
        [⟨"x".data, MetricType.gauge, some 3⟩, ⟨"y".data, MetricType.gauge, some 4⟩] =
      (generateAux ⟨none, false, true, true⟩ [] []
        [⟨"y".data, MetricType.gauge, some 4⟩]).map ([Ev.logmsg] ++ ·)) ∧
    (processRecord ⟨none, false, true, true⟩ [false] [] ⟨"x".data, MetricType.gauge, some 3⟩ =
      (RecResult.skipped [Ev.logmsg], [])) ∧
    (∃ rs2, List.Sublist rs2
        [⟨"req".data, MetricType.counter, some 5⟩, ⟨"x".data, MetricType.gauge, some 3⟩] ∧
      prometheus_generate_metrics [] ⟨none, false, true, true⟩ true rs2 =
        some "# HELP uwsgi_x x\n# TYPE uwsgi_x gauge\nuwsgi_x 3\n".data) := by
  refine ⟨(c3_amended ⟨none, false, true, true⟩).1 [true, true, false] [] _ _ [] (by decide),
    (c3_amended ⟨none, false, true, true⟩).2.1 [false] [] _ _ [Ev.logmsg] [] (by decide),
    (c3_amended ⟨none, false, true, true⟩).2.2.1 [false] [] _ [] (by decide) (by decide)
      (by decide),
    (c3_amended ⟨none, false, true, true⟩).2.2.2 [true, true, false] _ _ (by decide)⟩

/-! ### Claim C5 -/

/-- C5: in the event trace of any generation pass, the registry lock is
acquired only in read (shared) mode — the write lock never occurs — and
every acquisition spans exactly one int64 value read: between `rlock` and
`rwunlock` there is the single `readValue` event and nothing else, so the
lock is never held across the record iteration, the output formatting
(buffer appends), or any logging. -/
theorem c5_lock_discipline (tape : List Bool) (cfg : PromConfig) (hasMetrics : Bool)
    (rs : List MetricRecord) (evs : List Ev)
    (h : prometheus_generate_metrics_evs tape cfg hasMetrics rs = some evs) :
    criticalSectionsOk evs = true ∧ Ev.wlock ∉ evs := by
  rw [prometheus_generate_metrics_evs] at h
  by_cases hg : hasMetrics = false ∨ rs.isEmpty
  · rw [if_pos hg] at h
    rw [← Option.some.inj h]
    exact ⟨rfl, by simp⟩
  · rw [if_neg hg] at h
    exact generateAux_lock_discipline cfg rs tape [] evs h

/-- C5 witness: the trace of a one-record pass, with the single
read-locked value read between the formatting appends. -/
theorem c5_lock_discipline_witness :
    criticalSectionsOk [Ev.bufAppend "uwsgi_x".data, Ev.bufAppend [' '], Ev.rlock,
      Ev.readValue 3, Ev.rwunlock, Ev.bufAppend "3".data, Ev.bufAppend ['\n']] = true ∧
    Ev.wlock ∉ [Ev.bufAppend "uwsgi_x".data, Ev.bufAppend [' '], Ev.rlock,
      Ev.readValue 3, Ev.rwunlock, Ev.bufAppend "3".data, Ev.bufAppend ['\n']] :=
  c5_lock_discipline [] ⟨none, false, false, false⟩ true
    [⟨"x".data, MetricType.gauge, some 3⟩]
    [Ev.bufAppend "uwsgi_x".data, Ev.bufAppend [' '], Ev.rlock,
      Ev.readValue 3, Ev.rwunlock, Ev.bufAppend "3".data, Ev.bufAppend ['\n']]
    (by decide)

/-! ### Claim C7 -/

/-- C7: when metrics are disabled or the registry head is absent, the
generation pass returns a successful, zero-byte buffer (`some []`), never
an error, whatever the allocation tape. -/
theorem c7_disabled_empty (tape : List Bool) (cfg : PromConfig) (hasMetrics : Bool)
    (rs : List MetricRecord) (h : hasMetrics = false ∨ rs = []) :
    prometheus_generate_metrics tape cfg hasMetrics rs = some [] := by
  rw [prometheus_generate_metrics, prometheus_generate_metrics_evs, if_pos]
  · rfl
  · rcases h with h | h
    · exact Or.inl h
    · exact Or.inr (by rw [h]; rfl)

/-- C7 witness: with metrics disabled and a non-empty registry, the pass
returns the empty buffer. -/
theorem c7_disabled_empty_witness :
    (false = false ∨ ([⟨"x".data, MetricType.gauge, some 3⟩] : List MetricRecord) = []) ∧
    prometheus_generate_metrics [] ⟨none, false, true, true⟩ false
      [⟨"x".data, MetricType.gauge, some 3⟩] = some [] :=
  ⟨Or.inl rfl, c7_disabled_empty [] ⟨none, false, true, true⟩ false
    [⟨"x".data, MetricType.gauge, some 3⟩] (Or.inl rfl)⟩

/-! ### Claim C8 -/

/-- C8: whenever the metrics subsystem is unavailable (disabled or
registry absent) the route handler writes the 503 response with its fixed
plain-text body and never invokes the generation pass; and on every
outcome — success, 503, 500, or any failing host response primitive — the
handler returns UWSGI_ROUTE_BREAK, never yielding to later handlers. -/
theorem c8_route_adapter (hostTape tape : List Bool) (cfg : PromConfig)
    (hasMetrics : Bool) (rs : List MetricRecord) :
    (uwsgi_routing_func_prometheus_metrics hostTape tape cfg hasMetrics rs).1 =
      UwsgiRouteResult.route_break ∧
    (hasMetrics = false ∨ rs = [] →
      RAct.genCall ∉
        (uwsgi_routing_func_prometheus_metrics hostTape tape cfg hasMetrics rs).2 ∧
      (uwsgi_routing_func_prometheus_metrics [] tape cfg hasMetrics rs).2 =
        [RAct.prepare status503, RAct.body msg503]) := by
  constructor
  · rw [uwsgi_routing_func_prometheus_metrics.eq_def]
    split
    · split <;> rfl
    · split
      · split <;> rfl
      · split
        · rfl
        · split
          · rfl
          · split <;> rfl
  · intro hguard
    have hg2 : hasMetrics = false ∨ rs.isEmpty := by
      rcases hguard with h | h
      · exact Or.inl h
      · exact Or.inr (by rw [h]; rfl)
    constructor
    · rw [uwsgi_routing_func_prometheus_metrics.eq_def, if_pos hg2]
      split <;> simp
    · rw [uwsgi_routing_func_prometheus_metrics.eq_def, if_pos hg2,
        if_neg (by rw [show tapeStep [] = (true, []) from rfl]; simp)]

/-- C8 witness: with metrics disabled and a non-empty registry, the
handler breaks the chain, makes no generation call even with a failing
host primitive, and under working host primitives writes exactly the 503
status and its fixed body. -/
theorem c8_route_adapter_witness :
    (uwsgi_routing_func_prometheus_metrics [false] [] ⟨none, false, true, true⟩ false
        [⟨"x".data, MetricType.gauge, some 3⟩]).1 = UwsgiRouteResult.route_break ∧
    (RAct.genCall ∉
      (uwsgi_routing_func_prometheus_metrics [false] [] ⟨none, false, true, true⟩ false
        [⟨"x".data, MetricType.gauge, some 3⟩]).2 ∧
    (uwsgi_routing_func_prometheus_metrics [] [] ⟨none, false, true, true⟩ false
        [⟨"x".data, MetricType.gauge, some 3⟩]).2 =
      [RAct.prepare status503, RAct.body msg503]) :=
  ⟨(c8_route_adapter [false] [] ⟨none, false, true, true⟩ false
      [⟨"x".data, MetricType.gauge, some 3⟩]).1,
   (c8_route_adapter [false] [] ⟨none, false, true, true⟩ false
      [⟨"x".data, MetricType.gauge, some 3⟩]).2 (Or.inl rfl)⟩

/-! ### Claim C9 -/

/-- C9: a scheduler tick with the responder unbound (negative listening
fd) returns immediately with no state change and no accepted connection;
a tick with a bound responder accepts exactly one pending connection (the
head of the OS accept queue) and serves it, leaving the rest queued — so
two simultaneously pending clients are both served within two ticks. -/
theorem c9_one_accept_per_tick (tape : List Bool) (cfg : PromConfig) (hasMetrics : Bool)
    (rs : List MetricRecord) :
    (∀ st : MasterState, st.server_fd < 0 →
      prometheus_master_cycle tape cfg hasMetrics rs st = (st, none)) ∧
    (∀ st : MasterState, 0 ≤ st.server_fd →
      (st.pending = [] → prometheus_master_cycle tape cfg hasMetrics rs st = (st, none)) ∧
      (∀ c rest, st.pending = c :: rest →
        prometheus_master_cycle tape cfg hasMetrics rs st =
          ({ st with pending := rest },
            some (prometheus_server_handle_request tape cfg hasMetrics rs c)))) ∧
    (∀ (fd : Int) (c1 c2 : Conn), 0 ≤ fd →
      prometheus_master_cycle tape cfg hasMetrics rs ⟨fd, [c1, c2]⟩ =
        (⟨fd, [c2]⟩, some (prometheus_server_handle_request tape cfg hasMetrics rs c1)) ∧
      prometheus_master_cycle tape cfg hasMetrics rs ⟨fd, [c2]⟩ =
        (⟨fd, []⟩, some (prometheus_server_handle_request tape cfg hasMetrics rs c2))) := by
  refine ⟨?_, ?_, ?_⟩
  · intro st hfd
    rw [prometheus_master_cycle, if_pos hfd]
  · intro st hfd
    constructor
    · intro hp
      rw [prometheus_master_cycle, if_neg (by omega), hp]
    · intro c rest hp
      rw [prometheus_master_cycle, if_neg (by omega), hp]
  · intro fd c1 c2 hfd
    constructor
    · rw [prometheus_master_cycle, if_neg (show ¬(fd < 0) by omega)]
    · rw [prometheus_master_cycle, if_neg (show ¬(fd < 0) by omega)]

/-- C9 witness: an unbound tick is a no-op; a bound tick with two pending
clients serves the first and a second tick serves the other. -/
theorem c9_one_accept_per_tick_witness :
    prometheus_master_cycle [] ⟨none, false, true, true⟩ true [] ⟨-1, [⟨5⟩]⟩ =
      (⟨-1, [⟨5⟩]⟩, none) ∧
    prometheus_master_cycle [] ⟨none, false, true, true⟩ true [] ⟨3, [⟨5⟩, ⟨6⟩]⟩ =
      (⟨3, [⟨6⟩]⟩,
        some (prometheus_server_handle_request [] ⟨none, false, true, true⟩ true [] ⟨5⟩)) ∧
    prometheus_master_cycle [] ⟨none, false, true, true⟩ true [] ⟨3, [⟨6⟩]⟩ =
      (⟨3, []⟩,
        some (prometheus_server_handle_request [] ⟨none, false, true, true⟩ true [] ⟨6⟩)) :=
  ⟨(c9_one_accept_per_tick [] ⟨none, false, true, true⟩ true []).1 ⟨-1, [⟨5⟩]⟩ (by decide),
   ((c9_one_accept_per_tick [] ⟨none, false, true, true⟩ true []).2.2 3 ⟨5⟩ ⟨6⟩
     (by decide)).1,
   ((c9_one_accept_per_tick [] ⟨none, false, true, true⟩ true []).2.2 3 ⟨5⟩ ⟨6⟩
     (by decide)).2⟩

/-! ### Claim C10 -/

set_option maxRecDepth 20000 in
/-- C10, at the failing input: when generation fails (here an
output-buffer append failure on the only record), the dedicated responder
writes the fixed 500 response, whose header declares
`Content-Length: 28` while the body after the blank line —
`"Failed to generate metrics\n"` — is 27 bytes (the hardcoded 28 counts a
trailing NUL that is never written).  The 200 path is consistent: its
declared Content-Length equals the generated body's byte count. -/
theorem c10_content_length_bug :
    prometheus_server_handle_request [true, true, true, false] ⟨none, false, true, true⟩ true
        [⟨"x".data, MetricType.gauge, some 3⟩] ⟨10⟩ = some http500Fixed ∧
    parseCL http500Fixed = some 28 ∧
    (splitBody http500Fixed).length = 27 ∧
    prometheus_server_handle_request [] ⟨none, false, true, true⟩ true
        [⟨"x".data, MetricType.gauge, some 3⟩] ⟨10⟩ =
      some ("HTTP/1.0 200 OK\r\nContent-Type: text/plain; version=0.0.4; " ++
        "charset=utf-8\r\nContent-Length: 48\r\nConnection: close\r\n\r\n" ++
        "# HELP uwsgi_x x\n# TYPE uwsgi_x gauge\nuwsgi_x 3\n").data ∧
    parseCL ("HTTP/1.0 200 OK\r\nContent-Type: text/plain; version=0.0.4; " ++
        "charset=utf-8\r\nContent-Length: 48\r\nConnection: close\r\n\r\n" ++
        "# HELP uwsgi_x x\n# TYPE uwsgi_x gauge\nuwsgi_x 3\n").data =
      some (splitBody ("HTTP/1.0 200 OK\r\nContent-Type: text/plain; version=0.0.4; " ++
        "charset=utf-8\r\nContent-Length: 48\r\nConnection: close\r\n\r\n" ++
        "# HELP uwsgi_x x\n# TYPE uwsgi_x gauge\nuwsgi_x 3\n").data).length :=
  ⟨by decide, by decide, by decide, by decide, by decide⟩

end UwsgiProm
